import Mathlib

/-!
Verification of validate.go: discovery, execution and comparison of solutions.

A shallow embedding of `src/validate.go`.

* Go strings and byte slices are lists of bytes (`GoString`).
* `int` is the 64-bit Go `int`, embedded in `Int`; the only arithmetic on it is `Problem-1`
  in the index expression `answers[solution.Problem-1]`.
* The standard-library functions the program calls (`path.Ext`, `strconv.Atoi`,
  `bytes.TrimSuffix`, `sort.Slice`) are embedded after their Go sources and documentation.
* The sequential part of `main` (sort, compare, print) is a function on the collected slice;
  the goroutines of `SourceSolutions`, `RunSolutions` and `main` are a step relation on an
  explicit state (`Step`), one constructor per communication or statement.
-/

namespace Validate

/-! ## Data model -/

/-- A Go `string` or `[]byte`: a finite sequence of bytes. A byte is a natural number; every
function below only compares bytes with ASCII constants. -/
abbrev GoString := List Nat

/-- The bytes of an ASCII literal. -/
def ascii (s : String) : GoString := s.toList.map Char.toNat

/-- The struct `Solution` (validate.go:19-23). -/
structure Solution where
  Answer : GoString
  Path : GoString
  Problem : Int
deriving DecidableEq

/-! ## Standard-library functions used by the program -/

/-- The loop of `path.Ext`: `i` runs from `len(path)-1` down to 0 and stops at a slash (byte 47);
`path[i:]` is returned at the first dot (byte 46) met; the argument is `i+1`. -/
def extFrom (path : GoString) : Nat → GoString
  | 0 => []
  | i + 1 =>
    match path.get? i with
    | none => []
    | some c =>
      if c = 47 then []
      else if c = 46 then path.drop i
      else extFrom path i

/-- Go `path.Ext`: the suffix beginning at the final dot in the final slash-separated element
of the path, empty if there is no dot. -/
def Ext (path : GoString) : GoString := extFrom path path.length

/-- The error kinds of `strconv.NumError`. -/
inductive NumError where
  | ErrSyntax
  | ErrRange
deriving DecidableEq

/-- The constant `maxUint64` of package strconv. -/
def maxUint64 : Nat := 18446744073709551615

/-- The digit loop of `strconv.ParseUint(s, 10, 0)` on a 64-bit platform, started with
accumulator `n`: `cutoff = maxUint64/10 + 1`, `maxVal = 1<<64 - 1`. A byte that is not a decimal
digit (letters are digits of value at least 10, hence rejected for base 10) is a syntax error;
an accumulator that leaves the `uint64` range is a range error with value `maxVal`. The sum
`n*10 + d` is computed modulo `2^64` as in Go. -/
def parseUintLoop (n : Nat) : GoString → Nat × Option NumError
  | [] => (n, none)
  | c :: rest =>
    if 48 ≤ c ∧ c ≤ 57 then
      if n ≥ maxUint64 / 10 + 1 then (maxUint64, some NumError.ErrRange)
      else
        let n10 := n * 10
        let n1 := (n10 + (c - 48)) % 18446744073709551616
        if n1 < n10 ∨ n1 > maxUint64 then (maxUint64, some NumError.ErrRange)
        else parseUintLoop n1 rest
    else (0, some NumError.ErrSyntax)

/-- Go `strconv.ParseUint(s, 10, 0)`. -/
def ParseUint (s : GoString) : Nat × Option NumError :=
  if s = [] then (0, some NumError.ErrSyntax) else parseUintLoop 0 s

/-- The tail of `strconv.ParseInt` after the sign has been picked off: `un, err` is the result
of `ParseUint`, `cutoff = 1 << 63`. -/
def parseIntFinish (neg : Bool) (r : Nat × Option NumError) : Int × Option NumError :=
  if r.2 = some NumError.ErrSyntax then (0, some NumError.ErrSyntax)
  else if !neg ∧ r.1 ≥ 9223372036854775808 then (9223372036854775807, some NumError.ErrRange)
  else if neg ∧ r.1 > 9223372036854775808 then (-9223372036854775808, some NumError.ErrRange)
  else if neg then (-(r.1 : Int), none)
  else ((r.1 : Int), none)

/-- Go `strconv.ParseInt(s, 10, 0)` on a 64-bit platform: value and error. -/
def ParseInt (s : GoString) : Int × Option NumError :=
  match s with
  | [] => (0, some NumError.ErrSyntax)
  | c :: rest =>
    if c = 43 then parseIntFinish false (ParseUint rest)
    else if c = 45 then parseIntFinish true (ParseUint rest)
    else parseIntFinish false (ParseUint (c :: rest))

/-- Go `strconv.Atoi`, documented as `ParseInt(s, 10, 0)` converted to `int` (its fast path for
short inputs computes the same result). -/
def Atoi (s : GoString) : Int × Option NumError := ParseInt s

/-- Go `bytes.TrimSuffix(s, suffix)`: `s[:len(s)-len(suffix)]` when `s` ends with `suffix`,
else `s`. -/
def TrimSuffix (s suffix : GoString) : GoString :=
  if suffix.isSuffixOf s then s.take (s.length - suffix.length) else s

/-! ## SourceSolutions (validate.go:25-52) -/

/-- The descriptors sent on the channel by an uncancelled `SourceSolutions`, in order, for the
directory listing `files` (the names returned by `os.ReadDir`). -/
def SourceSolutions : List GoString → List Solution
  | [] => []
  | name :: files =>
    if Ext name ≠ ascii ".go" ∨ name = ascii "validate.go" then SourceSolutions files
    else
      let problemNumber := (Atoi (name.take (name.length - (Ext name).length))).1
      { Answer := [], Path := name, Problem := problemNumber } :: SourceSolutions files

/-! ## RunSolutions, the body of one worker iteration (validate.go:66-71) -/

/-- What a worker does with a received descriptor: `exec` is the outcome of
`exec.Command("go", "run", solution.Path).CombinedOutput()`, `none` for a non-nil `err`
(followed by `log.Fatalf`), `some answer` otherwise. -/
def runOne (exec : GoString → Option GoString) (solution : Solution) : Option Solution :=
  match exec solution.Path with
  | none => none
  | some answer => some { solution with Answer := TrimSuffix answer [10] }

/-! ## The report of main (validate.go:128-143) -/

/-- The comparison `less` passed to `sort.Slice`. -/
def less (a b : Solution) : Prop := a.Problem < b.Problem

instance : DecidableRel less := fun a b => inferInstanceAs (Decidable (a.Problem < b.Problem))

/-- The documented contract of `sort.Slice`: the slice is rearranged so that no element is
`less` than an element before it. The sort is not guaranteed stable. -/
def IsSortSliceOutput (input output : List Solution) : Prop :=
  output.Perm input ∧ output.Pairwise (fun a b => ¬ less b a)

/-- An executable output of `sort.Slice(solutions, less)`: insertion sort, the algorithm
`sort.Slice` runs on slices of at most 12 elements. On a longer slice `sort.Slice` runs pdqsort,
which may order results of equal id otherwise; `sortSlice` is then one of the outputs allowed
by `IsSortSliceOutput`, and the only one when the ids are pairwise distinct
(`sortSlice_unique`). Statements on batches with repeated ids are made for every output
allowed by `IsSortSliceOutput`. -/
def sortSlice (solutions : List Solution) : List Solution :=
  solutions.insertionSort (fun a b => ¬ less b a)

/-- The index expression `answers[i]`; `none` is the run-time panic "index out of range". -/
def index (answers : List GoString) (i : Int) : Option GoString :=
  if 0 ≤ i then answers.get? i.toNat else none

/-- The arguments of the `fmt.Printf` call of validate.go:141, one printed line. -/
structure ReportLine where
  Problem : Int
  correctness : GoString
  Answer : GoString
  equality : GoString
  expected : GoString
deriving DecidableEq

/-- One iteration of the report loop (validate.go:130-143); `none` is the panic of
`answers[solution.Problem-1]`. `Problem-1` cannot wrap to a valid index: it wraps only at the
least `int`, to the greatest one. -/
def reportLine (answers : List GoString) (solution : Solution) : Option ReportLine :=
  match index answers (solution.Problem - 1) with
  | none => none
  | some expected =>
    if solution.Answer ≠ expected then
      some ⟨solution.Problem, ascii "incorrect", solution.Answer, ascii "!=", expected⟩
    else
      some ⟨solution.Problem, ascii "correct", solution.Answer, ascii "==", expected⟩

/-- What the report loop did: the lines printed, in order, and the result at which the program
panicked, if it did. -/
structure Report where
  lines : List ReportLine
  fatal : Option Solution
deriving DecidableEq

/-- The loop `for _, solution := range solutions` of validate.go:130-143. -/
def reportLoop (answers : List GoString) : List Solution → Report
  | [] => ⟨[], none⟩
  | solution :: rest =>
    match reportLine answers solution with
    | none => ⟨[], some solution⟩
    | some line => ⟨line :: (reportLoop answers rest).lines, (reportLoop answers rest).fatal⟩

/-- The part of `main` after the collection loop, sort then report, for the output `sortSlice`
of `sort.Slice`: the report of `main` whenever that output is the one `sort.Slice` returns, in
particular for pairwise distinct ids. -/
def mainReport (answers : List GoString) (collected : List Solution) : Report :=
  reportLoop answers (sortSlice collected)


/-- Replace the output of the results of id `k` by `answer` (used to compare two batches with
pairwise distinct ids that differ in one output). -/
def setAnswer (k : Int) (answer : GoString) (s : Solution) : Solution :=
  if s.Problem = k then { s with Answer := answer } else s

/-! ## Vocabulary of the statements on file names -/

/-- The name with its extension removed: the argument of `strconv.Atoi` at validate.go:41. -/
def stem (name : GoString) : GoString := name.take (name.length - (Ext name).length)

/-- The selection of validate.go:37: extension ".go" and not the validator itself. -/
def selected (name : GoString) : Bool :=
  decide (Ext name = ascii ".go" ∧ name ≠ ascii "validate.go")

/-- A decimal digit. -/
def isDigit (c : Nat) : Bool := decide (48 ≤ c ∧ c ≤ 57)

/-- The number denoted by the decimal digits `s`, most significant first, appended to the
number `n`. -/
def digitsValue (n : Nat) (s : GoString) : Nat := s.foldl (fun n c => n * 10 + (c - 48)) n

/-- The integer denoted by a valid decimal integer, in the words of the specification: an
optional sign followed by one or more decimal digits; `none` for any other string. -/
def decimalValue (s : GoString) : Option Int :=
  match s with
  | [] => none
  | c :: rest =>
    if c = 43 then
      if rest ≠ [] ∧ rest.all isDigit = true then some (digitsValue 0 rest : Int) else none
    else if c = 45 then
      if rest ≠ [] ∧ rest.all isDigit = true then some (-(digitsValue 0 rest : Int)) else none
    else if (c :: rest).all isDigit = true then some (digitsValue 0 (c :: rest) : Int)
    else none

/-- The digits read by `strconv.Atoi` before the first byte that is not a digit, after one
optional sign. -/
def leadingDigits (s : GoString) : GoString :=
  match s with
  | [] => []
  | c :: rest => if c = 43 ∨ c = 45 then rest.takeWhile isDigit else (c :: rest).takeWhile isDigit

/-- A decimal numeral of a positive `int` in canonical form: digits only, no sign, no leading
zero, value below `2^63`. -/
def isCanonicalId (s : GoString) : Prop :=
  s ≠ [] ∧ s.all isDigit = true ∧ s.head? ≠ some 48 ∧ digitsValue 0 s < 9223372036854775808

instance (s : GoString) : Decidable (isCanonicalId s) := by
  unfold isCanonicalId
  exact inferInstance

instance (input output : List Solution) : Decidable (IsSortSliceOutput input output) := by
  unfold IsSortSliceOutput
  exact inferInstance

/-! ## The goroutines (validate.go:25-88, 113-146)

The process is a state and a step function. A step is one communication on an unbuffered channel
(the send and the receive happen together) or one statement of one goroutine; a run is a list of
steps, in any interleaving. `ctx` is cancelled only by the deferred `cancelFunc` when `main`
returns, which ends the process, so that the `case <-ctx.Done()` branches never run. -/

/-- The state of one worker goroutine of `RunSolutions` (validate.go:62-79). -/
inductive Worker where
  /-- Blocked in `for solution := range unprocessed` (line 65). -/
  | receiving
  /-- The descriptor has been received; `exec.Command(...).CombinedOutput()` (line 66). -/
  | running (solution : Solution)
  /-- The Answer is set (line 71); blocked in the send of line 74. -/
  | sending (solution : Solution)
  /-- The loop is over and the deferred `wg.Done()` has run (line 63). -/
  | done
deriving DecidableEq

/-- Where `main` is. -/
inductive MainAt where
  /-- In the loop of lines 124-126. -/
  | collecting
  /-- In the loop of lines 130-143, with the sorted results not yet handled. -/
  | reporting (rest : List Solution)
  /-- Past line 145. -/
  | returned
deriving DecidableEq

/-- How the process was terminated other than by the return of `main`. -/
inductive Exit where
  /-- The call `log.Fatalf` of line 68, for the descriptor whose invocation failed. -/
  | fatalf (solution : Solution)
  /-- The run-time panic of `answers[solution.Problem-1]` at line 136. -/
  | indexPanic (solution : Solution)
deriving DecidableEq

/-- The state of the process. -/
structure State where
  /-- Descriptors `SourceSolutions` has still to send. -/
  pending : List Solution
  /-- The goroutine of `SourceSolutions` has returned: `close(solutions)` of line 29. -/
  sourceDone : Bool
  /-- The `numWorkers` goroutines of `RunSolutions`. -/
  workers : List Worker
  /-- The goroutine of lines 82-85 has passed `wg.Wait()` and run its `close`. -/
  closer : Bool
  /-- How many times `close(solutions)` of line 83 has run. -/
  closes : Nat
  /-- The slice `solutions` of `main`. -/
  collected : List Solution
  main : MainAt
  /-- The lines printed so far by line 141. -/
  printed : List ReportLine
  exited : Option Exit
  /-- History: which worker received which descriptor, in order of receipt. -/
  received : List (Nat × Solution)
deriving DecidableEq

/-- One step of one goroutine, or one communication between two. -/
inductive Action where
  /-- The send of line 44 is received by worker `i` at line 65. -/
  | handoff (i : Nat)
  /-- The loop of lines 36-48 is over; the deferred `close` of line 29 runs. -/
  | sourceReturn
  /-- Worker `i` gets the outcome of the invocation: lines 66-71, or `log.Fatalf`. -/
  | exec (i : Nat)
  /-- The send of line 74 by worker `i` is received by `main` (lines 124-125). -/
  | deliver (i : Nat)
  /-- Worker `i` finds `unprocessed` closed and returns (lines 65, 63). -/
  | workerReturn (i : Nat)
  /-- The call `wg.Wait()` returns and `close(solutions)` runs (lines 83-84). -/
  | closeResults
  /-- The loop of `main` finds the channel closed; `sort.Slice` leaves `sorted` (lines 124, 128). -/
  | endCollect (sorted : List Solution)
  /-- One iteration of the loop of lines 130-143: a line, or the panic. -/
  | report
  /-- Lines 145-146. -/
  | mainReturn
deriving DecidableEq

/-- The state when `main` enters the loop of line 124, with `numWorkers` workers started. -/
def init (files : List GoString) (numWorkers : Nat) : State :=
  { pending := SourceSolutions files, sourceDone := false,
    workers := List.replicate numWorkers Worker.receiving, closer := false, closes := 0,
    collected := [], main := MainAt.collecting, printed := [], exited := none, received := [] }

/-- The step function: `none` when the action is not enabled. Nothing runs after the process
has exited or `main` has returned. -/
def step (exec : GoString → Option GoString) (answers : List GoString) (s : State)
    (a : Action) : Option State :=
  if s.exited ≠ none ∨ s.main = MainAt.returned then none
  else
    match a with
    | Action.handoff i =>
      match s.pending, s.workers.get? i with
      | d :: rest, some Worker.receiving =>
        some { s with pending := rest, workers := s.workers.set i (Worker.running d),
                      received := s.received ++ [(i, d)] }
      | _, _ => none
    | Action.sourceReturn =>
      match s.pending, s.sourceDone with
      | [], false => some { s with sourceDone := true }
      | _, _ => none
    | Action.exec i =>
      match s.workers.get? i with
      | some (Worker.running d) =>
        match runOne exec d with
        | some r => some { s with workers := s.workers.set i (Worker.sending r) }
        | none => some { s with exited := some (Exit.fatalf d) }
      | _ => none
    | Action.deliver i =>
      match s.workers.get? i, s.main with
      | some (Worker.sending r), MainAt.collecting =>
        some { s with workers := s.workers.set i Worker.receiving,
                      collected := s.collected ++ [r] }
      | _, _ => none
    | Action.workerReturn i =>
      match s.workers.get? i, s.sourceDone with
      | some Worker.receiving, true => some { s with workers := s.workers.set i Worker.done }
      | _, _ => none
    | Action.closeResults =>
      if s.closer = false ∧ ∀ w ∈ s.workers, w = Worker.done then
        some { s with closer := true, closes := s.closes + 1 }
      else none
    | Action.endCollect sorted =>
      match s.main with
      | MainAt.collecting =>
        if 1 ≤ s.closes ∧ IsSortSliceOutput s.collected sorted then
          some { s with main := MainAt.reporting sorted }
        else none
      | _ => none
    | Action.report =>
      match s.main with
      | MainAt.reporting (x :: rest) =>
        match reportLine answers x with
        | some line => some { s with printed := s.printed ++ [line],
                                     main := MainAt.reporting rest }
        | none => some { s with exited := some (Exit.indexPanic x) }
      | _ => none
    | Action.mainReturn =>
      match s.main with
      | MainAt.reporting [] => some { s with main := MainAt.returned }
      | _ => none

/-- The state after a run, if every step of it was enabled. -/
def run (exec : GoString → Option GoString) (answers : List GoString) :
    State → List Action → Option State
  | s, [] => some s
  | s, a :: rest =>
    match step exec answers s a with
    | none => none
    | some s' => run exec answers s' rest

/-- The path and id of a result: what a worker copies from the descriptor. -/
def ident (s : Solution) : GoString × Int := (s.Path, s.Problem)

/-- The descriptor or result a worker holds. -/
def Worker.held : Worker → List Solution
  | Worker.running d => [d]
  | Worker.sending r => [r]
  | _ => []

/-- The descriptors and results held by the workers. -/
def inflight (ws : List Worker) : List Solution := (ws.map Worker.held).flatten

/-- The number of steps a worker in this state has at most before it holds nothing. -/
def Worker.weight : Worker → Nat
  | Worker.receiving => 1
  | Worker.running _ => 5
  | Worker.sending _ => 4
  | Worker.done => 0

/-- A bound on the number of steps left, decreased by every step. -/
def remaining (s : State) : Nat :=
  5 * s.pending.length + (s.workers.map Worker.weight).sum
    + (if s.sourceDone = true then 0 else 1) + (if s.closer = true then 0 else 1)
    + (match s.main with
        | MainAt.collecting => 2 * s.collected.length + 2
        | MainAt.reporting rest => rest.length + 1
        | MainAt.returned => 0)
    + (if s.exited = none then 1 else 0)

/-- The invariant of the process, for the listing `files` and `numWorkers` workers. -/
structure Inv (exec : GoString → Option GoString) (answers : List GoString)
    (files : List GoString) (numWorkers : Nat) (s : State) : Prop where
  /-- The descriptors received so far, in order, then those still to send, are the output of
  `SourceSolutions`. -/
  order : s.received.map Prod.snd ++ s.pending = SourceSolutions files
  index : ∀ p ∈ s.received, p.1 < numWorkers
  count : s.workers.length = numWorkers
  /-- What was received is held by a worker or collected, once. -/
  conserve : ((inflight s.workers ++ s.collected).map ident).Perm
    ((s.received.map Prod.snd).map ident)
  answered : ∀ r, (r ∈ s.collected ∨ Worker.sending r ∈ s.workers) →
    ∃ out, exec r.Path = some out ∧ r.Answer = TrimSuffix out [10]
  runningInv : ∀ d, Worker.running d ∈ s.workers → d ∈ s.received.map Prod.snd
  srcDone : s.sourceDone = true → s.pending = []
  wdone : Worker.done ∈ s.workers → s.sourceDone = true
  closerInv : s.closes = if s.closer = true then 1 else 0
  closed : s.closer = true → ∀ w ∈ s.workers, w = Worker.done
  mainInv : s.main ≠ MainAt.collecting → s.closer = true
  quiet : s.main = MainAt.collecting → s.printed = []
  fatal : ∀ d, s.exited = some (Exit.fatalf d) →
    s.main = MainAt.collecting ∧ runOne exec d = none ∧ d ∈ s.received.map Prod.snd
  reportInv : ∀ rest, s.main = MainAt.reporting rest →
    ∃ handled, IsSortSliceOutput s.collected (handled ++ rest) ∧
      s.printed = handled.filterMap (reportLine answers) ∧
      ∀ t ∈ handled, reportLine answers t ≠ none
  returnedInv : s.main = MainAt.returned →
    ∃ sorted, IsSortSliceOutput s.collected sorted ∧
      reportLoop answers sorted = ⟨s.printed, none⟩
  panicInv : ∀ x, s.exited = some (Exit.indexPanic x) →
    ∃ rest, s.main = MainAt.reporting (x :: rest) ∧ reportLine answers x = none

/-- A worker is running an invocation that fails, or `log.Fatalf` has ended the process after
one. -/
def Doomed (exec : GoString → Option GoString) (s : State) : Prop :=
  (∃ d, Worker.running d ∈ s.workers ∧ exec d.Path = none) ∨
    (∃ d, s.exited = some (Exit.fatalf d) ∧ exec d.Path = none)

/-! # Theorems -/

/-! ## Lemmas on sort.Slice -/

theorem sortSlice_perm (l : List Solution) : (sortSlice l).Perm l :=
  List.perm_insertionSort _ l

theorem sortSlice_sorted (l : List Solution) :
    (sortSlice l).Pairwise (fun a b => ¬ less b a) := by
  haveI : IsTotal Solution (fun a b => ¬ less b a) := ⟨fun a b => by unfold less; omega⟩
  haveI : IsTrans Solution (fun a b => ¬ less b a) :=
    ⟨fun a b c h1 h2 => by unfold less at *; omega⟩
  exact List.sorted_insertionSort _ l

theorem sortSlice_isOutput (l : List Solution) : IsSortSliceOutput l (sortSlice l) :=
  ⟨sortSlice_perm l, sortSlice_sorted l⟩

theorem strict_of_nodup {l : List Solution} (hn : (l.map (·.Problem)).Nodup)
    (hs : l.Pairwise (fun a b => ¬ less b a)) :
    l.Pairwise (fun a b => a.Problem < b.Problem) := by
  have hne : l.Pairwise (fun a b => a.Problem ≠ b.Problem) := by
    have hp : (l.map (·.Problem)).Pairwise (· ≠ ·) := hn
    exact List.pairwise_map.mp hp
  refine (hs.and hne).imp ?_
  intro a b h
  have h1 := h.1
  have h2 := h.2
  unfold less at h1
  omega

/-- With pairwise distinct ids the contract of `sort.Slice` leaves one possible output. -/
theorem sortSlice_unique {input output : List Solution}
    (hn : (input.map (·.Problem)).Nodup) (h : IsSortSliceOutput input output) :
    output = sortSlice input := by
  haveI : IsAntisymm Solution (fun a b => a.Problem < b.Problem) :=
    ⟨fun a b h1 h2 => absurd h1 (by omega)⟩
  have hp : output.Perm (sortSlice input) := h.1.trans (sortSlice_perm input).symm
  refine List.eq_of_perm_of_sorted (r := fun a b : Solution => a.Problem < b.Problem) hp ?_ ?_
  · exact strict_of_nodup (((h.1.map _).nodup_iff).mpr hn) h.2
  · exact strict_of_nodup ((((sortSlice_perm input).map _).nodup_iff).mpr hn)
      (sortSlice_sorted input)

/-! ## Lemmas on the report loop -/

theorem index_eq_none_iff (answers : List GoString) (i : Int) :
    index answers i = none ↔ i < 0 ∨ (answers.length : Int) ≤ i := by
  unfold index
  split_ifs with h
  · rw [List.get?_eq_none]
    omega
  · simp only [true_iff]
    omega

theorem reportLine_eq_none_iff (answers : List GoString) (s : Solution) :
    reportLine answers s = none ↔ s.Problem < 1 ∨ (answers.length : Int) < s.Problem := by
  unfold reportLine
  cases h : index answers (s.Problem - 1) with
  | none =>
    have := (index_eq_none_iff answers (s.Problem - 1)).mp h
    simp only [true_iff]
    omega
  | some e =>
    have hne : ¬ (s.Problem - 1 < 0 ∨ (answers.length : Int) ≤ s.Problem - 1) := by
      intro hc
      have := (index_eq_none_iff answers (s.Problem - 1)).mpr hc
      rw [h] at this
      exact Option.noConfusion this
    constructor
    · intro hc
      simp only at hc
      split_ifs at hc
    · intro hc
      exact absurd (by omega) hne

theorem reportLine_problem {answers : List GoString} {s : Solution} {line : ReportLine}
    (h : reportLine answers s = some line) : line.Problem = s.Problem ∧ line.Answer = s.Answer := by
  unfold reportLine at h
  cases hi : index answers (s.Problem - 1) with
  | none => rw [hi] at h; exact Option.noConfusion h
  | some e =>
    rw [hi] at h
    simp only at h
    split_ifs at h <;> · cases h; exact ⟨rfl, rfl⟩

theorem reportLoop_of_valid (answers : List GoString) (l : List Solution)
    (h : ∀ s ∈ l, reportLine answers s ≠ none) :
    (reportLoop answers l).fatal = none ∧
      (reportLoop answers l).lines = l.filterMap (reportLine answers) ∧
      (reportLoop answers l).lines.map (·.Problem) = l.map (·.Problem) := by
  induction l with
  | nil => exact ⟨rfl, rfl, rfl⟩
  | cons s rest ih =>
    have ih := ih (fun t ht => h t (List.mem_cons_of_mem _ ht))
    have hs := h s (List.mem_cons_self _ _)
    cases hl : reportLine answers s with
    | none => exact absurd hl hs
    | some line =>
      have hp := (reportLine_problem hl).1
      refine ⟨?_, ?_, ?_⟩
      · simp only [reportLoop, hl, ih.1]
      · simp only [reportLoop, hl, List.filterMap_cons, ih.2.1]
      · simp only [reportLoop, hl, List.map_cons, ih.2.2, hp]

/-- The report loop stops at the first result without an expected value, after printing the
lines of the results before it. -/
theorem reportLoop_stops (answers : List GoString) (l : List Solution)
    (h : ∃ s ∈ l, reportLine answers s = none) :
    ∃ pre bad post, l = pre ++ bad :: post ∧ (∀ t ∈ pre, reportLine answers t ≠ none) ∧
      reportLine answers bad = none ∧
      reportLoop answers l = ⟨pre.filterMap (reportLine answers), some bad⟩ ∧
      (pre.filterMap (reportLine answers)).length = pre.length := by
  induction l with
  | nil =>
    obtain ⟨s, hs, _⟩ := h
    exact absurd hs (List.not_mem_nil s)
  | cons x rest ih =>
    cases hx : reportLine answers x with
    | none =>
      exact ⟨[], x, rest, rfl, fun t ht => absurd ht (List.not_mem_nil t), hx,
        by simp only [reportLoop, hx, List.filterMap_nil], rfl⟩
    | some line =>
      have h' : ∃ s ∈ rest, reportLine answers s = none := by
        obtain ⟨s, hs, hbad⟩ := h
        rcases List.mem_cons.mp hs with rfl | hin
        · rw [hx] at hbad; exact Option.noConfusion hbad
        · exact ⟨s, hin, hbad⟩
      obtain ⟨pre, bad, post, hsplit, hpre, hbad, hrun, hlen⟩ := ih h'
      refine ⟨x :: pre, bad, post, by rw [hsplit]; rfl, ?_, hbad, ?_, ?_⟩
      · intro t ht
        rcases List.mem_cons.mp ht with rfl | hin
        · rw [hx]; exact fun hc => Option.noConfusion hc
        · exact hpre t hin
      · simp only [reportLoop, hx, hrun, List.filterMap_cons]
      · simp only [List.filterMap_cons, hx, List.length_cons, hlen]

/-- C1: for a batch of collected results with pairwise distinct ids that all have an expected
value, the report of `main` has no failure, one line per result, strictly ascending ids, and
the same ids as the batch; whatever rearrangement `sort.Slice` produces gives this report;
the empty batch gives the empty report and no failure. -/
theorem report_complete_ascending (answers : List GoString) (collected : List Solution)
    (hdistinct : (collected.map (·.Problem)).Nodup)
    (hvalid : ∀ s ∈ collected, 1 ≤ s.Problem ∧ s.Problem ≤ (answers.length : Int)) :
    (mainReport answers collected).fatal = none ∧
    (mainReport answers collected).lines.length = collected.length ∧
    ((mainReport answers collected).lines.map (·.Problem)).Pairwise (· < ·) ∧
    (∀ k, k ∈ (mainReport answers collected).lines.map (·.Problem) ↔
      k ∈ collected.map (·.Problem)) ∧
    (∀ sorted, IsSortSliceOutput collected sorted →
      reportLoop answers sorted = mainReport answers collected) ∧
    mainReport answers [] = ⟨[], none⟩ := by
  have hv : ∀ s ∈ sortSlice collected, reportLine answers s ≠ none := by
    intro s hs hc
    have hmem := (sortSlice_perm collected).mem_iff.mp hs
    have := hvalid s hmem
    have := (reportLine_eq_none_iff answers s).mp hc
    omega
  obtain ⟨hf, _, hids⟩ := reportLoop_of_valid answers (sortSlice collected) hv
  have hlen : (mainReport answers collected).lines.length = collected.length := by
    have := congrArg List.length hids
    simp only [List.length_map] at this
    rw [mainReport, this]
    exact (sortSlice_perm collected).length_eq
  refine ⟨hf, hlen, ?_, ?_, ?_, rfl⟩
  · rw [mainReport, hids]
    have hn : ((sortSlice collected).map (·.Problem)).Nodup :=
      (((sortSlice_perm collected).map _).nodup_iff).mpr hdistinct
    exact List.pairwise_map.mpr (strict_of_nodup hn (sortSlice_sorted collected))
  · intro k
    rw [mainReport, hids]
    exact ((sortSlice_perm collected).map _).mem_iff
  · intro sorted hs
    rw [sortSlice_unique hdistinct hs, mainReport]

theorem report_complete_ascending_witness :
    (mainReport [[52, 50], [55], [56]]
        [⟨[55], [99], 3⟩, ⟨[52, 50], [97], 1⟩, ⟨[55], [98], 2⟩]).lines.map (·.Problem)
      = [1, 2, 3] ∧
    (mainReport [[52, 50], [55], [56]]
        [⟨[55], [99], 3⟩, ⟨[52, 50], [97], 1⟩, ⟨[55], [98], 2⟩]).lines.length = 3 :=
  ⟨by decide,
   (report_complete_ascending [[52, 50], [55], [56]]
      [⟨[55], [99], 3⟩, ⟨[52, 50], [97], 1⟩, ⟨[55], [98], 2⟩] (by decide) (by decide)).2.1⟩

/-- C3: two arrival orders of a batch with pairwise distinct ids give the same report, in
content and in order, whatever rearrangements `sort.Slice` produces for them. -/
theorem report_order_independent (answers : List GoString) (first second : List Solution)
    (hperm : first.Perm second) (hdistinct : (first.map (·.Problem)).Nodup) :
    mainReport answers first = mainReport answers second ∧
    ∀ sorted₁ sorted₂, IsSortSliceOutput first sorted₁ → IsSortSliceOutput second sorted₂ →
      reportLoop answers sorted₁ = reportLoop answers sorted₂ := by
  have hd2 : (second.map (·.Problem)).Nodup := ((hperm.map _).nodup_iff).mp hdistinct
  have hout : IsSortSliceOutput first (sortSlice second) :=
    ⟨(sortSlice_perm second).trans hperm.symm, sortSlice_sorted second⟩
  have heq : sortSlice second = sortSlice first := sortSlice_unique hdistinct hout
  refine ⟨by rw [mainReport, mainReport, heq], ?_⟩
  intro s1 s2 h1 h2
  rw [sortSlice_unique hdistinct h1, sortSlice_unique hd2 h2, heq]

theorem report_order_independent_witness :
    mainReport [[52, 50], [55], [56]]
        [⟨[55], [99], 3⟩, ⟨[52, 50], [97], 1⟩, ⟨[55], [98], 2⟩] =
      mainReport [[52, 50], [55], [56]]
        [⟨[55], [98], 2⟩, ⟨[55], [99], 3⟩, ⟨[52, 50], [97], 1⟩] :=
  (report_order_independent [[52, 50], [55], [56]]
      [⟨[55], [99], 3⟩, ⟨[52, 50], [97], 1⟩, ⟨[55], [98], 2⟩]
      [⟨[55], [98], 2⟩, ⟨[55], [99], 3⟩, ⟨[52, 50], [97], 1⟩] (by decide) (by decide)).1

/-- C4: a collected result whose id exceeds the number of expected values makes the index
expression panic when the loop reaches it, the report loop of the batch ends in that fatal
error at a result without expected value (at a result of this id when all smaller ids have
one), and no line, in particular no line marked incorrect, is printed for the id. -/
theorem missing_expected_is_fatal (answers : List GoString) (collected sorted : List Solution)
    (s : Solution) (hs : s ∈ collected) (hbad : (answers.length : Int) < s.Problem)
    (hsorted : IsSortSliceOutput collected sorted) :
    reportLine answers s = none ∧
    (∀ rest, reportLoop answers (s :: rest) = ⟨[], some s⟩) ∧
    (∃ t ∈ collected, (reportLoop answers sorted).fatal = some t ∧
      reportLine answers t = none) ∧
    (∀ line ∈ (reportLoop answers sorted).lines, line.Problem ≠ s.Problem) ∧
    ((∀ t ∈ collected, t.Problem < s.Problem → reportLine answers t ≠ none) →
      ∃ t, (reportLoop answers sorted).fatal = some t ∧ t.Problem = s.Problem) := by
  have hnone : reportLine answers s = none :=
    (reportLine_eq_none_iff answers s).mpr (Or.inr hbad)
  have hmem : s ∈ sorted := hsorted.1.mem_iff.mpr hs
  obtain ⟨pre, bad, post, hsplit, hpre, hbadline, hrun, _⟩ :=
    reportLoop_stops answers sorted ⟨s, hmem, hnone⟩
  have hbadmem : bad ∈ collected :=
    hsorted.1.mem_iff.mp (by rw [hsplit]; simp)
  refine ⟨hnone, ?_, ⟨bad, hbadmem, by rw [hrun], hbadline⟩, ?_, ?_⟩
  · intro rest
    simp only [reportLoop, hnone]
  · intro line hline hc
    rw [hrun] at hline
    obtain ⟨t, ht, hl⟩ := List.mem_filterMap.mp hline
    have hp := (reportLine_problem hl).1
    have hv := hpre t ht
    have : reportLine answers t = none :=
      (reportLine_eq_none_iff answers t).mpr (Or.inr (by omega))
    exact hv this
  · intro hsmall
    refine ⟨bad, by rw [hrun], ?_⟩
    have hle : ¬ s.Problem < bad.Problem := by
      rw [hsplit] at hmem
      rcases List.mem_append.mp hmem with hin | hin
      · exact absurd hnone (hpre s hin)
      · rcases List.mem_cons.mp hin with rfl | hin'
        · omega
        · have hp := hsorted.2
          rw [hsplit] at hp
          have := (List.pairwise_cons.mp (List.pairwise_append.mp hp).2.1).1 s hin'
          exact this
    by_contra hne
    have hlt : bad.Problem < s.Problem := by omega
    exact hsmall bad hbadmem hlt hbadline

theorem missing_expected_is_fatal_witness :
    (reportLoop [[52, 50]] [⟨[52, 50], [97], 1⟩, ⟨[55], [98], 2⟩]).fatal
      = some ⟨[55], [98], 2⟩ ∧
    ∀ line ∈ (reportLoop [[52, 50]] [⟨[52, 50], [97], 1⟩, ⟨[55], [98], 2⟩]).lines,
      line.Problem ≠ 2 :=
  ⟨by decide,
   (missing_expected_is_fatal [[52, 50]] [⟨[55], [98], 2⟩, ⟨[52, 50], [97], 1⟩]
      [⟨[52, 50], [97], 1⟩, ⟨[55], [98], 2⟩] ⟨[55], [98], 2⟩ (by decide) (by decide)
      ⟨by decide, by decide⟩).2.2.2.1⟩

/-- C5, as stated, fails: with the single expected value "42" and the results 2 ("7") and
1 ("42"), id 2 has no expected value, the run ends in the panic at result 2, and the line of
result 1 has been printed before. -/
theorem lines_before_panic_counterexample :
    (∃ s ∈ [(⟨[55], [98], 2⟩ : Solution), ⟨[52, 50], [97], 1⟩],
      (([[52, 50]] : List GoString).length : Int) < s.Problem) ∧
    mainReport [[52, 50]] [⟨[55], [98], 2⟩, ⟨[52, 50], [97], 1⟩] =
      ⟨[⟨1, ascii "correct", [52, 50], ascii "==", [52, 50]⟩], some ⟨[55], [98], 2⟩⟩ ∧
    (mainReport [[52, 50]] [⟨[55], [98], 2⟩, ⟨[52, 50], [97], 1⟩]).lines ≠ [] := by
  refine ⟨⟨⟨[55], [98], 2⟩, by decide, by decide⟩, by decide, by decide⟩

/-- C5, amended: when some id of the batch has no expected value, the run stops with the
panic at the first such result in sorted order; the lines printed are exactly those of the
results sorted before it, one each, and nothing is printed for it or for a later result. -/
theorem missing_expected_stops_report (answers : List GoString)
    (collected sorted : List Solution)
    (hbad : ∃ s ∈ collected, s.Problem < 1 ∨ (answers.length : Int) < s.Problem)
    (hsorted : IsSortSliceOutput collected sorted) :
    ∃ pre bad post, sorted = pre ++ bad :: post ∧
      (∀ t ∈ pre, 1 ≤ t.Problem ∧ t.Problem ≤ (answers.length : Int)) ∧
      (bad.Problem < 1 ∨ (answers.length : Int) < bad.Problem) ∧
      reportLoop answers sorted = ⟨pre.filterMap (reportLine answers), some bad⟩ ∧
      (reportLoop answers sorted).lines.length = pre.length ∧
      (reportLoop answers sorted).lines.map (·.Problem) = pre.map (·.Problem) := by
  obtain ⟨s, hs, hsbad⟩ := hbad
  have hmem : s ∈ sorted := hsorted.1.mem_iff.mpr hs
  obtain ⟨pre, bad, post, hsplit, hpre, hbadline, hrun, hlen⟩ :=
    reportLoop_stops answers sorted ⟨s, hmem, (reportLine_eq_none_iff answers s).mpr hsbad⟩
  refine ⟨pre, bad, post, hsplit, ?_, (reportLine_eq_none_iff answers bad).mp hbadline, hrun,
    by rw [hrun]; exact hlen, ?_⟩
  · intro t ht
    have h1 := hpre t ht
    have h2 := reportLine_eq_none_iff answers t
    by_contra hc
    exact h1 (h2.mpr (by omega))
  · rw [hrun]
    have := (reportLoop_of_valid answers pre hpre)
    rw [← this.2.1]
    exact this.2.2

theorem missing_expected_stops_report_witness :
    ∃ pre bad post, [(⟨[52, 50], [97], 1⟩ : Solution), ⟨[55], [98], 2⟩] = pre ++ bad :: post ∧
      (∀ t ∈ pre, 1 ≤ t.Problem ∧ t.Problem ≤ (([[52, 50]] : List GoString).length : Int)) ∧
      (bad.Problem < 1 ∨ (([[52, 50]] : List GoString).length : Int) < bad.Problem) ∧
      reportLoop [[52, 50]] [⟨[52, 50], [97], 1⟩, ⟨[55], [98], 2⟩] =
        ⟨pre.filterMap (reportLine [[52, 50]]), some bad⟩ ∧
      (reportLoop [[52, 50]] [⟨[52, 50], [97], 1⟩, ⟨[55], [98], 2⟩]).lines.length
        = pre.length ∧
      (reportLoop [[52, 50]] [⟨[52, 50], [97], 1⟩, ⟨[55], [98], 2⟩]).lines.map (·.Problem)
        = pre.map (·.Problem) :=
  missing_expected_stops_report [[52, 50]] [⟨[55], [98], 2⟩, ⟨[52, 50], [97], 1⟩]
    [⟨[52, 50], [97], 1⟩, ⟨[55], [98], 2⟩] ⟨⟨[55], [98], 2⟩, by decide, by decide⟩
    ⟨by decide, by decide⟩

theorem setAnswer_problem (k : Int) (answer : GoString) (s : Solution) :
    (setAnswer k answer s).Problem = s.Problem := by
  unfold setAnswer
  split_ifs <;> rfl

theorem sortSlice_map_setAnswer (k : Int) (answer : GoString) (l : List Solution) :
    sortSlice (l.map (setAnswer k answer)) = (sortSlice l).map (setAnswer k answer) := by
  unfold sortSlice
  refine (List.map_insertionSort (fun a b => ¬ less b a) (fun a b => ¬ less b a) _ l ?_).symm
  intro a _ b _
  simp only [less, setAnswer_problem]

theorem reportLine_setAnswer_none (answers : List GoString) (k : Int) (answer : GoString)
    (s : Solution) :
    reportLine answers (setAnswer k answer s) = none ↔ reportLine answers s = none := by
  rw [reportLine_eq_none_iff, reportLine_eq_none_iff, setAnswer_problem]

/-- Changing the output of the results of id `k` leaves the place of the panic and every
printed line of another id as they were. -/
theorem reportLoop_map_setAnswer (answers : List GoString) (k : Int) (answer : GoString)
    (l : List Solution) :
    (reportLoop answers (l.map (setAnswer k answer))).lines.length
        = (reportLoop answers l).lines.length ∧
    ((reportLoop answers (l.map (setAnswer k answer))).fatal = none ↔
        (reportLoop answers l).fatal = none) ∧
    ∀ i line, (reportLoop answers l).lines.get? i = some line → line.Problem ≠ k →
      (reportLoop answers (l.map (setAnswer k answer))).lines.get? i = some line := by
  induction l with
  | nil => exact ⟨rfl, Iff.rfl, fun i line h _ => h⟩
  | cons s rest ih =>
    cases hs : reportLine answers s with
    | none =>
      have hs' := (reportLine_setAnswer_none answers k answer s).mpr hs
      simp only [List.map_cons, reportLoop, hs, hs', List.length_nil, List.get?_nil,
        true_and]
      refine ⟨by simp, ?_⟩
      intro i line h
      exact Option.noConfusion h
    | some line0 =>
      cases hs' : reportLine answers (setAnswer k answer s) with
      | none =>
        have := (reportLine_setAnswer_none answers k answer s).mp hs'
        rw [hs] at this
        exact Option.noConfusion this
      | some line1 =>
        simp only [List.map_cons, reportLoop, hs, hs', List.length_cons, ih.1, ih.2.1,
          true_and]
        intro i line h hk
        cases i with
        | zero =>
          simp only [List.get?_cons_zero, Option.some.injEq] at h ⊢
          subst h
          have hp := (reportLine_problem hs).1
          have hsame : setAnswer k answer s = s := by
            unfold setAnswer
            rw [if_neg (by rw [← hp]; exact hk)]
          rw [hsame, hs] at hs'
          exact (Option.some.inj hs').symm
        | succ j =>
          simp only [List.get?_cons_succ] at h ⊢
          exact ih.2.2 j line h hk

/-- Every printed line is the line of a result of the list. -/
theorem reportLoop_lines_sub (answers : List GoString) (l : List Solution) :
    ∀ line ∈ (reportLoop answers l).lines, ∃ t ∈ l, reportLine answers t = some line := by
  induction l with
  | nil =>
    intro line h
    exact absurd h (List.not_mem_nil line)
  | cons x rest ih =>
    intro line h
    cases hx : reportLine answers x with
    | none =>
      simp only [reportLoop, hx] at h
      exact absurd h (List.not_mem_nil line)
    | some lx =>
      simp only [reportLoop, hx] at h
      rcases List.mem_cons.mp h with h | h
      · exact ⟨x, List.mem_cons_self _ _, by rw [hx, h]⟩
      · obtain ⟨t, ht, hl⟩ := ih line h
        exact ⟨t, List.mem_cons_of_mem _ ht, hl⟩

/-- The loop ends without panic exactly when every result has an expected value. -/
theorem reportLoop_fatal_none_iff (answers : List GoString) (l : List Solution) :
    (reportLoop answers l).fatal = none ↔ ∀ s ∈ l, reportLine answers s ≠ none := by
  constructor
  · intro hf s hs hbad
    obtain ⟨pre, bad, post, _, _, _, hrun, _⟩ := reportLoop_stops answers l ⟨s, hs, hbad⟩
    rw [hrun] at hf
    exact Option.noConfusion hf
  · intro h
    exact (reportLoop_of_valid answers l h).1

theorem filterMap_none (answers : List GoString) (l : List Solution)
    (h : ∀ t ∈ l, reportLine answers t = none) : l.filterMap (reportLine answers) = [] := by
  induction l with
  | nil => rfl
  | cons x rest ih =>
    rw [List.filterMap_cons, h x (List.mem_cons_self _ _)]
    exact ih (fun t ht => h t (List.mem_cons_of_mem _ ht))

/-- On a list sorted by id nothing is printed when some id is below 1, and otherwise exactly
the lines of the results that have an expected value, in order. -/
theorem reportLoop_sorted (answers : List GoString) (l : List Solution)
    (hs : l.Pairwise (fun a b => ¬ less b a)) :
    ((∃ s ∈ l, s.Problem < 1) → (reportLoop answers l).lines = []) ∧
    ((∀ s ∈ l, 1 ≤ s.Problem) →
      (reportLoop answers l).lines = l.filterMap (reportLine answers)) := by
  constructor
  · rintro ⟨s, hmem, hlow⟩
    cases l with
    | nil => exact absurd hmem (List.not_mem_nil s)
    | cons x rest =>
      have hx : x.Problem ≤ s.Problem := by
        rcases List.mem_cons.mp hmem with h | h
        · rw [h]
        · have := (List.pairwise_cons.mp hs).1 s h
          unfold less at this
          omega
      have hnone : reportLine answers x = none :=
        (reportLine_eq_none_iff answers x).mpr (Or.inl (by omega))
      simp only [reportLoop, hnone]
  · intro hpos
    by_cases hall : ∀ s ∈ l, reportLine answers s ≠ none
    · exact (reportLoop_of_valid answers l hall).2.1
    · have hex : ∃ s ∈ l, reportLine answers s = none := by
        by_contra hc
        apply hall
        intro s hmem hbad
        exact hc ⟨s, hmem, hbad⟩
      obtain ⟨pre, bad, post, hsplit, hpre, hbad, hrun, _⟩ := reportLoop_stops answers l hex
      have hbadmem : bad ∈ l := by rw [hsplit]; simp
      have hbadhigh : (answers.length : Int) < bad.Problem := by
        have h1 := (reportLine_eq_none_iff answers bad).mp hbad
        have h2 := hpos bad hbadmem
        omega
      have htail : ∀ t ∈ bad :: post, reportLine answers t = none := by
        intro t ht
        rcases List.mem_cons.mp ht with h | h
        · rw [h]; exact hbad
        · rw [hsplit] at hs
          have := (List.pairwise_cons.mp (List.pairwise_append.mp hs).2.1).1 t h
          unfold less at this
          exact (reportLine_eq_none_iff answers t).mpr (Or.inr (by omega))
      rw [hrun, hsplit, List.filterMap_append, filterMap_none answers _ htail,
        List.append_nil]

theorem reportLine_withAnswer_none (answers : List GoString) (s : Solution)
    (answer : GoString) :
    reportLine answers { s with Answer := answer } = none ↔ reportLine answers s = none := by
  rw [reportLine_eq_none_iff, reportLine_eq_none_iff]

theorem map_setAnswer_of_nodup (pre post : List Solution) (s : Solution) (answer : GoString)
    (hn : ((pre ++ s :: post).map (·.Problem)).Nodup) :
    (pre ++ s :: post).map (setAnswer s.Problem answer)
      = pre ++ { s with Answer := answer } :: post := by
  have hp : (pre ++ s :: post).Pairwise (fun a b => a.Problem ≠ b.Problem) :=
    List.pairwise_map.mp hn
  obtain ⟨_, h2, h12⟩ := List.pairwise_append.mp hp
  have hpost := (List.pairwise_cons.mp h2).1
  have e1 : pre.map (setAnswer s.Problem answer) = pre := by
    conv_rhs => rw [← List.map_id pre]
    apply List.map_congr_left
    intro t ht
    unfold setAnswer
    rw [if_neg (h12 t ht s (List.mem_cons_self _ _))]
    rfl
  have e2 : post.map (setAnswer s.Problem answer) = post := by
    conv_rhs => rw [← List.map_id post]
    apply List.map_congr_left
    intro t ht
    unfold setAnswer
    rw [if_neg (fun h => hpost t ht h.symm)]
    rfl
  rw [List.map_append, List.map_cons, e1, e2]
  unfold setAnswer
  rw [if_pos rfl]

/-- C2: a collected result of id `k` between 1 and the number of expected values gets a line
carrying the expected value of position `k-1`, marked correct ("==") exactly when its output
equals that value byte for byte and marked incorrect ("!=") exactly when it differs; whatever
`sort.Slice` returns, that line is in the report when no id of the batch is below 1, and
every line of the report is the line of a result of the batch; changing the output of one
result of a batch leaves the number of lines and the presence of a failure as they were and
the two reports equal, up to the order among results of equal id, except for the line of the
changed result (in the same places when the ids are pairwise distinct); the outputs 42, 7, 7
against the expected values 42, 7, 8 give correct, correct, incorrect. -/
theorem verdict_iff_equal (answers : List GoString) (solution : Solution)
    (hlow : 1 ≤ solution.Problem) (hhigh : solution.Problem ≤ (answers.length : Int)) :
    (∃ expected line, answers.get? (solution.Problem - 1).toNat = some expected ∧
      reportLine answers solution = some line ∧
      line.Problem = solution.Problem ∧ line.Answer = solution.Answer ∧
      line.expected = expected ∧
      ((line.correctness = ascii "correct" ∧ line.equality = ascii "==") ↔
        solution.Answer = expected) ∧
      ((line.correctness = ascii "incorrect" ∧ line.equality = ascii "!=") ↔
        solution.Answer ≠ expected)) ∧
    (∀ collected sorted, solution ∈ collected → IsSortSliceOutput collected sorted →
      (∀ t ∈ collected, 1 ≤ t.Problem) →
      ∃ line ∈ (reportLoop answers sorted).lines, reportLine answers solution = some line) ∧
    (∀ collected sorted, IsSortSliceOutput collected sorted →
      ∀ line ∈ (reportLoop answers sorted).lines,
        ∃ t ∈ collected, reportLine answers t = some line) ∧
    (∀ (pre post : List Solution) (s : Solution) (answer : GoString)
        (sorted₁ sorted₂ : List Solution),
      IsSortSliceOutput (pre ++ s :: post) sorted₁ →
      IsSortSliceOutput (pre ++ { s with Answer := answer } :: post) sorted₂ →
      (reportLoop answers sorted₂).lines.length = (reportLoop answers sorted₁).lines.length ∧
      ((reportLoop answers sorted₂).fatal = none ↔ (reportLoop answers sorted₁).fatal = none) ∧
      (∃ common,
        ((reportLoop answers sorted₁).lines.Perm common ∧
          (reportLoop answers sorted₂).lines.Perm common) ∨
        (∃ l₁ l₂, reportLine answers s = some l₁ ∧
          reportLine answers { s with Answer := answer } = some l₂ ∧
          (reportLoop answers sorted₁).lines.Perm (l₁ :: common) ∧
          (reportLoop answers sorted₂).lines.Perm (l₂ :: common))) ∧
      (((pre ++ s :: post).map (·.Problem)).Nodup →
        ∀ i line, (reportLoop answers sorted₁).lines.get? i = some line →
          line.Problem ≠ s.Problem →
          (reportLoop answers sorted₂).lines.get? i = some line)) ∧
    (∀ sorted,
      IsSortSliceOutput
        [⟨ascii "42", ascii "a.go", 1⟩, ⟨ascii "7", ascii "b.go", 2⟩,
          ⟨ascii "7", ascii "c.go", 3⟩] sorted →
      reportLoop [ascii "42", ascii "7", ascii "8"] sorted =
        ⟨[⟨1, ascii "correct", ascii "42", ascii "==", ascii "42"⟩,
          ⟨2, ascii "correct", ascii "7", ascii "==", ascii "7"⟩,
          ⟨3, ascii "incorrect", ascii "7", ascii "!=", ascii "8"⟩], none⟩) := by
  have hne1 : ascii "correct" ≠ ascii "incorrect" := by decide
  have hne2 : ascii "incorrect" ≠ ascii "correct" := by decide
  refine ⟨?_, ?_, ?_, ?_, ?_⟩
  · have hlt : (solution.Problem - 1).toNat < answers.length := by omega
    have hget : answers.get? (solution.Problem - 1).toNat
        = some (answers.get ⟨(solution.Problem - 1).toNat, hlt⟩) := List.get?_eq_get hlt
    have hidx : index answers (solution.Problem - 1)
        = some (answers.get ⟨(solution.Problem - 1).toNat, hlt⟩) := by
      unfold index
      rw [if_pos (by omega), hget]
    by_cases heq : solution.Answer = answers.get ⟨(solution.Problem - 1).toNat, hlt⟩
    · refine ⟨_, ⟨solution.Problem, ascii "correct", solution.Answer, ascii "==", _⟩, hget,
        ?_, rfl, rfl, rfl, ?_, ?_⟩
      · unfold reportLine
        rw [hidx]
        simp only [ne_eq, heq, not_true_eq_false, if_false]
      · exact ⟨fun _ => heq, fun _ => ⟨rfl, rfl⟩⟩
      · constructor
        · intro h
          exact absurd h.1 hne1
        · intro h
          exact absurd heq h
    · refine ⟨_, ⟨solution.Problem, ascii "incorrect", solution.Answer, ascii "!=", _⟩, hget,
        ?_, rfl, rfl, rfl, ?_, ?_⟩
      · unfold reportLine
        rw [hidx]
        simp only [ne_eq, heq, not_false_eq_true, if_true]
      · constructor
        · intro h
          exact absurd h.1 hne2
        · intro h
          exact absurd h heq
      · exact ⟨fun _ => heq, fun _ => ⟨rfl, rfl⟩⟩
  · intro collected sorted hmem hsorted hpos
    have hpos' : ∀ t ∈ sorted, 1 ≤ t.Problem :=
      fun t ht => hpos t (hsorted.1.mem_iff.mp ht)
    have hlines := (reportLoop_sorted answers sorted hsorted.2).2 hpos'
    cases hl : reportLine answers solution with
    | none =>
      have := (reportLine_eq_none_iff answers solution).mp hl
      omega
    | some line =>
      refine ⟨line, ?_, rfl⟩
      rw [hlines]
      exact List.mem_filterMap.mpr ⟨solution, hsorted.1.mem_iff.mpr hmem, hl⟩
  · intro collected sorted hsorted line hline
    obtain ⟨t, ht, hl⟩ := reportLoop_lines_sub answers sorted line hline
    exact ⟨t, hsorted.1.mem_iff.mp ht, hl⟩
  · intro pre post s answer sorted₁ sorted₂ h1 h2
    have hnone := reportLine_withAnswer_none answers s answer
    have hfatal : (reportLoop answers sorted₂).fatal = none ↔
        (reportLoop answers sorted₁).fatal = none := by
      rw [reportLoop_fatal_none_iff, reportLoop_fatal_none_iff]
      constructor
      · intro h t ht
        have htc := h1.1.mem_iff.mp ht
        rcases List.mem_append.mp htc with hin | hin
        · exact h t (h2.1.mem_iff.mpr (List.mem_append_left _ hin))
        · rcases List.mem_cons.mp hin with hin | hin
          · have := h { s with Answer := answer } (h2.1.mem_iff.mpr (by simp))
            rw [hin]
            exact fun hc => this (hnone.mpr hc)
          · exact h t (h2.1.mem_iff.mpr (by simp [hin]))
      · intro h t ht
        have htc := h2.1.mem_iff.mp ht
        rcases List.mem_append.mp htc with hin | hin
        · exact h t (h1.1.mem_iff.mpr (List.mem_append_left _ hin))
        · rcases List.mem_cons.mp hin with hin | hin
          · have := h s (h1.1.mem_iff.mpr (by simp))
            rw [hin]
            exact fun hc => this (hnone.mp hc)
          · exact h t (h1.1.mem_iff.mpr (by simp [hin]))
    have hcore : (reportLoop answers sorted₂).lines.length
          = (reportLoop answers sorted₁).lines.length ∧
        ∃ common,
          ((reportLoop answers sorted₁).lines.Perm common ∧
            (reportLoop answers sorted₂).lines.Perm common) ∨
          (∃ l₁ l₂, reportLine answers s = some l₁ ∧
            reportLine answers { s with Answer := answer } = some l₂ ∧
            (reportLoop answers sorted₁).lines.Perm (l₁ :: common) ∧
            (reportLoop answers sorted₂).lines.Perm (l₂ :: common)) := by
      by_cases hP : ∃ t ∈ pre ++ s :: post, t.Problem < 1
      · obtain ⟨t, ht, hlow⟩ := hP
        have e1 := (reportLoop_sorted answers sorted₁ h1.2).1 ⟨t, h1.1.mem_iff.mpr ht, hlow⟩
        have ht2 : ∃ u ∈ sorted₂, u.Problem < 1 := by
          rcases List.mem_append.mp ht with hin | hin
          · exact ⟨t, h2.1.mem_iff.mpr (List.mem_append_left _ hin), hlow⟩
          · rcases List.mem_cons.mp hin with hin | hin
            · refine ⟨{ s with Answer := answer }, h2.1.mem_iff.mpr (by simp), ?_⟩
              rw [hin] at hlow
              exact hlow
            · exact ⟨t, h2.1.mem_iff.mpr (by simp [hin]), hlow⟩
        have e2 := (reportLoop_sorted answers sorted₂ h2.2).1 ht2
        rw [e1, e2]
        exact ⟨rfl, [], Or.inl ⟨List.Perm.refl _, List.Perm.refl _⟩⟩
      · have hpos : ∀ t ∈ pre ++ s :: post, 1 ≤ t.Problem := by
          intro t ht
          by_contra hc
          exact hP ⟨t, ht, by omega⟩
        have hpos1 : ∀ t ∈ sorted₁, 1 ≤ t.Problem :=
          fun t ht => hpos t (h1.1.mem_iff.mp ht)
        have hpos2 : ∀ t ∈ sorted₂, 1 ≤ t.Problem := by
          intro t ht
          have htc := h2.1.mem_iff.mp ht
          rcases List.mem_append.mp htc with hin | hin
          · exact hpos t (List.mem_append_left _ hin)
          · rcases List.mem_cons.mp hin with hin | hin
            · rw [hin]
              exact hpos s (by simp)
            · exact hpos t (by simp [hin])
        have e1 := (reportLoop_sorted answers sorted₁ h1.2).2 hpos1
        have e2 := (reportLoop_sorted answers sorted₂ h2.2).2 hpos2
        have p1 : (reportLoop answers sorted₁).lines.Perm
            ((pre ++ s :: post).filterMap (reportLine answers)) := by
          rw [e1]; exact h1.1.filterMap _
        have p2 : (reportLoop answers sorted₂).lines.Perm
            ((pre ++ { s with Answer := answer } :: post).filterMap (reportLine answers)) := by
          rw [e2]; exact h2.1.filterMap _
        rw [List.filterMap_append, List.filterMap_cons] at p1 p2
        cases hs : reportLine answers s with
        | none =>
          have hs' := hnone.mpr hs
          rw [hs] at p1
          rw [hs'] at p2
          simp only at p1 p2
          refine ⟨by rw [p1.length_eq, p2.length_eq], _, Or.inl ⟨p1, p2⟩⟩
        | some l₁ =>
          cases hs' : reportLine answers { s with Answer := answer } with
          | none =>
            have := hnone.mp hs'
            rw [hs] at this
            exact Option.noConfusion this
          | some l₂ =>
            rw [hs] at p1
            rw [hs'] at p2
            simp only at p1 p2
            have q1 := p1.trans List.perm_middle
            have q2 := p2.trans List.perm_middle
            refine ⟨?_, _, Or.inr ⟨l₁, l₂, rfl, rfl, q1, q2⟩⟩
            rw [q1.length_eq, q2.length_eq, List.length_cons, List.length_cons]
    refine ⟨hcore.1, hfatal, hcore.2, ?_⟩
    intro hn i line hget hk
    have hmap := map_setAnswer_of_nodup pre post s answer hn
    have hn2 : ((pre ++ { s with Answer := answer } :: post).map (·.Problem)).Nodup := by
      rw [← hmap, List.map_map]
      have : ((fun x => x.Problem) ∘ setAnswer s.Problem answer) = (fun x => x.Problem) := by
        funext t
        exact setAnswer_problem _ _ _
      rw [this]
      exact hn
    have u1 := sortSlice_unique hn h1
    have u2 := sortSlice_unique hn2 h2
    rw [← hmap, sortSlice_map_setAnswer] at u2
    rw [u1] at hget
    rw [u2]
    exact (reportLoop_map_setAnswer answers s.Problem answer _).2.2 i line hget hk
  · intro sorted hsorted
    rw [sortSlice_unique (by decide) hsorted]
    decide

theorem verdict_iff_equal_witness :
    ∃ expected line, [ascii "42", ascii "7", ascii "8"].get? ((3 : Int) - 1).toNat
        = some expected ∧
      reportLine [ascii "42", ascii "7", ascii "8"] ⟨ascii "7", ascii "c.go", 3⟩ = some line ∧
      line.Problem = 3 ∧ line.Answer = ascii "7" ∧
      line.expected = expected ∧
      ((line.correctness = ascii "correct" ∧ line.equality = ascii "==") ↔
        ascii "7" = expected) ∧
      ((line.correctness = ascii "incorrect" ∧ line.equality = ascii "!=") ↔
        ascii "7" ≠ expected) :=
  (verdict_iff_equal [ascii "42", ascii "7", ascii "8"] ⟨ascii "7", ascii "c.go", 3⟩
    (by decide) (by decide)).1

/-- C8: the Answer stored by a worker for the raw output `b` of a successful invocation is `b`
without its last byte when that byte is the newline and `b` itself otherwise; it is a prefix
of `b` missing at most that one newline, so that "x\n\n" becomes "x\n". -/
theorem trims_one_trailing_newline (b : GoString) :
    TrimSuffix b [10] = (if b.getLast? = some 10 then b.dropLast else b) ∧
    (TrimSuffix b [10] = b ∨ TrimSuffix b [10] ++ [10] = b) ∧
    TrimSuffix [120, 10, 10] [10] = [120, 10] ∧
    (∀ (exec : GoString → Option GoString) (solution : Solution),
      exec solution.Path = some b →
      runOne exec solution = some ⟨TrimSuffix b [10], solution.Path, solution.Problem⟩) := by
  have key : TrimSuffix b [10] = (if b.getLast? = some 10 then b.dropLast else b) := by
    unfold TrimSuffix
    rcases List.eq_nil_or_concat b with rfl | ⟨c, x, rfl⟩
    · decide
    · rw [List.concat_eq_append]
      have hsuf : List.isSuffixOf [10] (c ++ [x]) = true ↔ x = 10 := by
        rw [List.isSuffixOf_iff_suffix]
        constructor
        · intro h
          obtain ⟨t, ht⟩ := h
          have := List.append_inj' ht rfl
          have h2 := this.2
          simp only [List.cons.injEq, and_true] at h2
          exact h2.symm
        · rintro rfl
          exact ⟨c, rfl⟩
      by_cases hx : x = 10
      · subst hx
        rw [if_pos (hsuf.mpr rfl)]
        simp
      · rw [if_neg (fun h => hx (hsuf.mp h))]
        simp [hx]
  refine ⟨key, ?_, by decide, ?_⟩
  · rw [key]
    rcases List.eq_nil_or_concat b with rfl | ⟨c, x, rfl⟩
    · left; rfl
    · rw [List.concat_eq_append]
      by_cases hx : x = 10
      · subst hx
        right
        simp
      · left
        simp [hx]
  · intro exec solution h
    unfold runOne
    rw [h]

theorem trims_one_trailing_newline_witness :
    runOne (fun _ => some [52, 50, 10]) ⟨[], [97, 46, 103, 111], 1⟩
      = some ⟨TrimSuffix [52, 50, 10] [10], [97, 46, 103, 111], 1⟩ :=
  (trims_one_trailing_newline [52, 50, 10]).2.2.2 (fun _ => some [52, 50, 10])
    ⟨[], [97, 46, 103, 111], 1⟩ rfl

/-! ## Lemmas on strconv.Atoi -/

theorem digitsValue_cons (n c : Nat) (s : GoString) :
    digitsValue n (c :: s) = digitsValue (n * 10 + (c - 48)) s := rfl

theorem digitsValue_ge (n : Nat) (s : GoString) : n ≤ digitsValue n s := by
  induction s generalizing n with
  | nil => exact le_refl n
  | cons c rest ih =>
    rw [digitsValue_cons]
    have := ih (n * 10 + (c - 48))
    omega

theorem isDigit_iff (c : Nat) : isDigit c = true ↔ 48 ≤ c ∧ c ≤ 57 := by
  unfold isDigit
  exact decide_eq_true_iff

/-- The digit loop of `ParseUint`: a range error as soon as the digits read exceed `maxUint64`,
else a syntax error if a byte is not a digit, else the number denoted. -/
theorem parseUintLoop_eq (s : GoString) (n : Nat) (hn : n ≤ maxUint64) :
    parseUintLoop n s =
      if digitsValue n (s.takeWhile isDigit) > maxUint64 then (maxUint64, some NumError.ErrRange)
      else if s.all isDigit = true then (digitsValue n s, none)
      else (0, some NumError.ErrSyntax) := by
  induction s generalizing n with
  | nil =>
    have h0 : digitsValue n [] = n := rfl
    simp only [parseUintLoop, List.takeWhile_nil, h0, List.all_nil, if_true]
    rw [if_neg (by omega)]
  | cons c rest ih =>
    by_cases hd : 48 ≤ c ∧ c ≤ 57
    · have hdig : isDigit c = true := (isDigit_iff c).mpr hd
      have htw : (c :: rest).takeWhile isDigit = c :: rest.takeWhile isDigit := by
        rw [List.takeWhile_cons, hdig]; rfl
      have hall : (c :: rest).all isDigit = rest.all isDigit := by
        rw [List.all_cons, hdig, Bool.true_and]
      rw [htw, hall, digitsValue_cons, digitsValue_cons]
      have hge := digitsValue_ge (n * 10 + (c - 48)) (rest.takeWhile isDigit)
      unfold maxUint64 at hn hge ⊢
      simp only [parseUintLoop, hd, and_self, if_true, maxUint64]
      by_cases hcut : n ≥ 18446744073709551615 / 10 + 1
      · rw [if_pos hcut, if_pos (by omega)]
      · rw [if_neg hcut]
        by_cases hwrap : n * 10 + (c - 48) < 18446744073709551616
        · have hmod : (n * 10 + (c - 48)) % 18446744073709551616 = n * 10 + (c - 48) :=
            Nat.mod_eq_of_lt hwrap
          rw [hmod, if_neg (by omega)]
          have := ih (n * 10 + (c - 48)) (by unfold maxUint64; omega)
          unfold maxUint64 at this
          exact this
        · rw [if_pos (by omega), if_pos (by omega)]
    · have hdig : isDigit c = false := by
        cases h : isDigit c
        · rfl
        · exact absurd ((isDigit_iff c).mp h) hd
      have htw : (c :: rest).takeWhile isDigit = [] := by
        rw [List.takeWhile_cons, hdig]; rfl
      have hall : (c :: rest).all isDigit = false := by
        rw [List.all_cons, hdig, Bool.false_and]
      have h0 : digitsValue n [] = n := rfl
      rw [htw, hall, h0, if_neg (by omega)]
      simp only [parseUintLoop, hd, if_false, Bool.false_eq_true]

theorem takeWhile_of_all (s : GoString) (h : s.all isDigit = true) :
    s.takeWhile isDigit = s := by
  induction s with
  | nil => rfl
  | cons c rest ih =>
    rw [List.all_cons, Bool.and_eq_true] at h
    rw [List.takeWhile_cons, h.1]
    simp only [if_true]
    rw [ih h.2]

/-- The result of `ParseUint` on a digit string and on any other string. -/
theorem ParseUint_eq (s : GoString) :
    ParseUint s =
      if digitsValue 0 (s.takeWhile isDigit) > maxUint64 then (maxUint64, some NumError.ErrRange)
      else if s ≠ [] ∧ s.all isDigit = true then (digitsValue 0 s, none)
      else (0, some NumError.ErrSyntax) := by
  unfold ParseUint
  by_cases hs : s = []
  · subst hs
    have h0 : digitsValue 0 [] = 0 := rfl
    simp only [if_true, List.takeWhile_nil, h0, ne_eq, not_true_eq_false, false_and, if_false]
    rw [if_neg (by unfold maxUint64; omega)]
  · rw [if_neg hs, parseUintLoop_eq s 0 (by unfold maxUint64; omega)]
    simp only [ne_eq, hs, not_false_eq_true, true_and]

/-- The value returned by `ParseInt` once the sign is known, for the rest `body`. -/
theorem parseIntFinish_ParseUint (neg : Bool) (body : GoString) :
    (parseIntFinish neg (ParseUint body)).1 =
      if digitsValue 0 (body.takeWhile isDigit) > maxUint64 then
        (if neg = true then -9223372036854775808 else 9223372036854775807)
      else if body ≠ [] ∧ body.all isDigit = true then
        (if neg = true then
          (if digitsValue 0 body > 9223372036854775808 then -9223372036854775808
           else -(digitsValue 0 body : Int))
         else
          (if digitsValue 0 body ≥ 9223372036854775808 then 9223372036854775807
           else (digitsValue 0 body : Int)))
      else 0 := by
  rw [ParseUint_eq]
  by_cases hr : digitsValue 0 (body.takeWhile isDigit) > maxUint64
  · rw [if_pos hr, if_pos hr]
    cases neg <;> simp [parseIntFinish, maxUint64]
  · rw [if_neg hr, if_neg hr]
    by_cases hv : body ≠ [] ∧ body.all isDigit = true
    · rw [if_pos hv, if_pos hv]
      cases neg
      · by_cases hb : digitsValue 0 body ≥ 9223372036854775808
        · simp [parseIntFinish, hb]
        · simp [parseIntFinish, hb]
      · by_cases hb : digitsValue 0 body > 9223372036854775808
        · simp [parseIntFinish, hb]
        · simp [parseIntFinish, hb]
    · rw [if_neg hv, if_neg hv]
      simp [parseIntFinish]

/-- The value of `strconv.Atoi` on every string. -/
theorem Atoi_value (s : GoString) :
    (Atoi s).1 =
      match decimalValue s with
      | some v =>
        if v > 9223372036854775807 then 9223372036854775807
        else if v < -9223372036854775808 then -9223372036854775808 else v
      | none =>
        if digitsValue 0 (leadingDigits s) > maxUint64 then
          (if s.head? = some 45 then -9223372036854775808 else 9223372036854775807)
        else 0 := by
  cases s with
  | nil =>
    have h0 : digitsValue 0 [] = 0 := rfl
    simp [Atoi, ParseInt, decimalValue, leadingDigits, h0, maxUint64]
  | cons c rest =>
    unfold Atoi ParseInt
    by_cases hplus : c = 43
    · subst hplus
      simp only [if_true, parseIntFinish_ParseUint, decimalValue, leadingDigits, true_or,
        List.head?_cons]
      by_cases hv : rest ≠ [] ∧ rest.all isDigit = true
      · have htw := takeWhile_of_all rest hv.2
        rw [htw]
        simp only [hv, and_self, if_true, ne_eq, not_false_eq_true, maxUint64,
          Bool.false_eq_true, if_false]
        split_ifs <;> first | rfl | omega
      · have h45 : ¬ ((some 43 : Option Nat) = some 45) := by decide
        simp only [hv, if_false, Bool.false_eq_true, h45]
    · by_cases hminus : c = 45
      · subst hminus
        simp only [if_true, parseIntFinish_ParseUint, decimalValue, leadingDigits, or_true,
          List.head?_cons, if_neg hplus]
        by_cases hv : rest ≠ [] ∧ rest.all isDigit = true
        · have htw := takeWhile_of_all rest hv.2
          rw [htw]
          simp only [hv, and_self, if_true, ne_eq, not_false_eq_true, maxUint64,
            Bool.false_eq_true, if_false]
          split_ifs <;> first | rfl | omega
        · simp only [hv, if_false, Bool.false_eq_true]
      · have hor : ¬ (c = 43 ∨ c = 45) := fun h => h.elim hplus hminus
        have hhead : ¬ ((c :: rest).head? = some 45) := by
          simp only [List.head?_cons, Option.some.injEq]; exact hminus
        simp only [if_neg hplus, if_neg hminus, if_neg hor, parseIntFinish_ParseUint,
          decimalValue, leadingDigits, if_neg hhead]
        by_cases hv : (c :: rest).all isDigit = true
        · have htw := takeWhile_of_all (c :: rest) hv
          rw [htw]
          simp only [hv, and_true, if_true, ne_eq, not_false_eq_true, maxUint64,
            reduceCtorEq, Bool.false_eq_true, if_false]
          split_ifs <;> first | rfl | omega
        · simp only [hv, and_false, if_false, Bool.false_eq_true]

/-! ## Lemmas on file names and ids -/

theorem extFrom_eq_drop (path : GoString) (i : Nat) : ∃ j, extFrom path i = path.drop j := by
  induction i with
  | zero => exact ⟨path.length, by rw [List.drop_length]; rfl⟩
  | succ i ih =>
    unfold extFrom
    cases path.get? i with
    | none => exact ⟨path.length, by rw [List.drop_length]⟩
    | some c =>
      simp only
      split_ifs
      · exact ⟨path.length, by rw [List.drop_length]⟩
      · exact ⟨i, rfl⟩
      · exact ih

theorem stem_append_Ext (name : GoString) : stem name ++ Ext name = name := by
  obtain ⟨j, hj⟩ := extFrom_eq_drop name name.length
  unfold stem Ext
  rw [hj]
  by_cases h : j ≤ name.length
  · have : name.length - (name.drop j).length = j := by
      rw [List.length_drop]; omega
    rw [this, List.take_append_drop]
  · have hd : name.drop j = [] := List.drop_eq_nil_of_le (by omega)
    rw [hd]
    simp

theorem SourceSolutions_eq (files : List GoString) :
    SourceSolutions files =
      (files.filter selected).map (fun name => ⟨[], name, (Atoi (stem name)).1⟩) := by
  induction files with
  | nil => rfl
  | cons name rest ih =>
    unfold SourceSolutions
    by_cases h : Ext name ≠ ascii ".go" ∨ name = ascii "validate.go"
    · have hs : selected name = false := by
        unfold selected
        rw [decide_eq_false_iff_not]
        intro hc
        rcases h with h | h
        · exact h hc.1
        · exact hc.2 h
      rw [if_pos h, List.filter_cons_of_neg (by rw [hs]; exact Bool.false_ne_true), ih]
    · have hs : selected name = true := by
        unfold selected
        rw [decide_eq_true_iff]
        constructor
        · by_contra hc
          exact h (Or.inl hc)
        · intro hc
          exact h (Or.inr hc)
      rw [if_neg h, List.filter_cons_of_pos hs, List.map_cons, ih]
      rfl

theorem digitsValue_split (n : Nat) (s : GoString) :
    digitsValue n s = n * 10 ^ s.length + digitsValue 0 s := by
  induction s generalizing n with
  | nil => simp [digitsValue]
  | cons c rest ih =>
    rw [digitsValue_cons, digitsValue_cons, ih (n * 10 + (c - 48)), ih (0 * 10 + (c - 48)),
      List.length_cons]
    ring

theorem digitsValue_zero_cons (c : Nat) (rest : GoString) :
    digitsValue 0 (c :: rest) = (c - 48) * 10 ^ rest.length + digitsValue 0 rest := by
  rw [digitsValue_cons, digitsValue_split]
  simp

theorem digitsValue_lt (s : GoString) (hall : s.all isDigit = true) :
    digitsValue 0 s < 10 ^ s.length := by
  induction s with
  | nil => simp [digitsValue]
  | cons c rest ih =>
    rw [List.all_cons, Bool.and_eq_true] at hall
    have hc := (isDigit_iff c).mp hall.1
    have hr := ih hall.2
    rw [digitsValue_zero_cons, List.length_cons, pow_succ]
    have hm : (c - 48) * 10 ^ rest.length ≤ 9 * 10 ^ rest.length :=
      Nat.mul_le_mul_right _ (by omega)
    omega

theorem digitsValue_inj_of_length (s t : GoString) (hlen : s.length = t.length)
    (hs : s.all isDigit = true) (ht : t.all isDigit = true)
    (hv : digitsValue 0 s = digitsValue 0 t) : s = t := by
  induction s generalizing t with
  | nil =>
    cases t with
    | nil => rfl
    | cons d rest => simp at hlen
  | cons c rest ih =>
    cases t with
    | nil => simp at hlen
    | cons d rest' =>
      simp only [List.length_cons, add_left_inj] at hlen
      rw [List.all_cons, Bool.and_eq_true] at hs ht
      have hc := (isDigit_iff c).mp hs.1
      have hd := (isDigit_iff d).mp ht.1
      have hr := digitsValue_lt rest hs.2
      have hr' := digitsValue_lt rest' ht.2
      rw [digitsValue_zero_cons, digitsValue_zero_cons, ← hlen] at hv
      rw [← hlen] at hr'
      have hX : 0 < 10 ^ rest.length := Nat.pow_pos (by omega)
      have h1 : ((c - 48) * 10 ^ rest.length + digitsValue 0 rest) / 10 ^ rest.length = c - 48 := by
        rw [Nat.add_comm, Nat.add_mul_div_right _ _ hX, Nat.div_eq_of_lt hr, Nat.zero_add]
      have h2 : ((d - 48) * 10 ^ rest.length + digitsValue 0 rest') / 10 ^ rest.length
          = d - 48 := by
        rw [Nat.add_comm, Nat.add_mul_div_right _ _ hX, Nat.div_eq_of_lt hr', Nat.zero_add]
      rw [hv, h2] at h1
      have hcd : c = d := by omega
      subst hcd
      have hrest : digitsValue 0 rest = digitsValue 0 rest' := by omega
      rw [ih rest' hlen hs.2 ht.2 hrest]

theorem isCanonicalId_bounds (s : GoString) (h : isCanonicalId s) :
    10 ^ (s.length - 1) ≤ digitsValue 0 s ∧ digitsValue 0 s < 10 ^ s.length ∧
      0 < digitsValue 0 s := by
  obtain ⟨hne, hall, hhead, _⟩ := h
  cases s with
  | nil => exact absurd rfl hne
  | cons c rest =>
    have hlt := digitsValue_lt (c :: rest) hall
    rw [List.all_cons, Bool.and_eq_true] at hall
    have hc := (isDigit_iff c).mp hall.1
    have hc48 : c ≠ 48 := by
      intro hc
      exact hhead (by rw [hc]; rfl)
    have hlow : 10 ^ rest.length ≤ digitsValue 0 (c :: rest) := by
      rw [digitsValue_zero_cons]
      have : 1 * 10 ^ rest.length ≤ (c - 48) * 10 ^ rest.length :=
        Nat.mul_le_mul_right _ (by omega)
      omega
    have hX : 0 < 10 ^ rest.length := Nat.pow_pos (by omega)
    refine ⟨by simpa using hlow, hlt, by omega⟩

theorem isCanonicalId_inj (s t : GoString) (hs : isCanonicalId s) (ht : isCanonicalId t)
    (hv : digitsValue 0 s = digitsValue 0 t) : s = t := by
  have bs := isCanonicalId_bounds s hs
  have bt := isCanonicalId_bounds t ht
  have hlen : s.length = t.length := by
    by_contra hne
    rcases Nat.lt_or_gt_of_ne hne with h | h
    · have : 10 ^ s.length ≤ 10 ^ (t.length - 1) :=
        Nat.pow_le_pow_right (by omega) (by omega)
      omega
    · have : 10 ^ t.length ≤ 10 ^ (s.length - 1) :=
        Nat.pow_le_pow_right (by omega) (by omega)
      omega
  exact digitsValue_inj_of_length s t hlen hs.2.1 ht.2.1 hv

theorem Atoi_of_canonical (s : GoString) (h : isCanonicalId s) :
    (Atoi s).1 = (digitsValue 0 s : Int) := by
  have hv := Atoi_value s
  obtain ⟨hne, hall, hhead, hlt⟩ := h
  cases s with
  | nil => exact absurd rfl hne
  | cons c rest =>
    have hall' := hall
    rw [List.all_cons, Bool.and_eq_true] at hall'
    have hc := (isDigit_iff c).mp hall'.1
    have hdec : decimalValue (c :: rest) = some (digitsValue 0 (c :: rest) : Int) := by
      have h43 : ¬ c = 43 := by omega
      have h45 : ¬ c = 45 := by omega
      simp only [decimalValue, if_neg h43, if_neg h45, if_pos hall]
    rw [hdec] at hv
    simp only at hv
    rw [hv, if_neg (by omega), if_neg (by omega)]

/-- C10, as stated, fails: the stem of "99999999999999999999.go" is a valid decimal integer,
yet the id emitted is neither the integer it denotes nor 0 but the greatest `int`, the value
`strconv.Atoi` returns with the range error that line 41 discards. -/
theorem atoi_range_counterexample :
    decimalValue (stem (ascii "99999999999999999999.go")) = some 99999999999999999999 ∧
    SourceSolutions [ascii "99999999999999999999.go"] =
      [⟨[], ascii "99999999999999999999.go", 9223372036854775807⟩] := by
  constructor <;> decide

/-- C10, amended: an uncancelled `SourceSolutions` emits, in listing order, one descriptor per
entry whose name has extension ".go" and is not "validate.go" and none for another entry; each
has Path equal to the name and an empty Answer; its Problem is the integer denoted by the stem
when the stem is a valid decimal integer within the `int` range ("12.go" gives 12), the
greatest or least `int` when such an integer lies above or below that range, and otherwise 0,
unless the digits before the first invalid byte already exceed `2^64-1`, in which case it is
again the least (after a minus sign) or greatest `int`. -/
theorem source_emits_selected (files : List GoString) :
    (SourceSolutions files).map (·.Path) = files.filter selected ∧
    (∀ name, selected name = true ↔ (Ext name = ascii ".go" ∧ name ≠ ascii "validate.go")) ∧
    (∀ d ∈ SourceSolutions files, d.Answer = [] ∧
      (∀ v, decimalValue (stem d.Path) = some v →
        (-9223372036854775808 ≤ v ∧ v ≤ 9223372036854775807 → d.Problem = v) ∧
        (9223372036854775807 < v → d.Problem = 9223372036854775807) ∧
        (v < -9223372036854775808 → d.Problem = -9223372036854775808)) ∧
      (decimalValue (stem d.Path) = none →
        (digitsValue 0 (leadingDigits (stem d.Path)) ≤ maxUint64 → d.Problem = 0) ∧
        (maxUint64 < digitsValue 0 (leadingDigits (stem d.Path)) →
          d.Problem = if (stem d.Path).head? = some 45 then -9223372036854775808
            else 9223372036854775807))) ∧
    SourceSolutions [ascii "12.go", ascii "validate.go", ascii "notes.txt", ascii "x.go"] =
      [⟨[], ascii "12.go", 12⟩, ⟨[], ascii "x.go", 0⟩] := by
  refine ⟨?_, ?_, ?_, by decide⟩
  · rw [SourceSolutions_eq, List.map_map]
    exact List.map_id _
  · intro name
    unfold selected
    exact decide_eq_true_iff
  · intro d hd
    rw [SourceSolutions_eq] at hd
    obtain ⟨name, _, rfl⟩ := List.mem_map.mp hd
    have hv := Atoi_value (stem name)
    refine ⟨rfl, ?_, ?_⟩
    · intro v hdec
      rw [hdec] at hv
      simp only at hv
      refine ⟨?_, ?_, ?_⟩
      · intro hr
        show (Atoi (stem name)).1 = v
        rw [hv, if_neg (by omega), if_neg (by omega)]
      · intro hr
        show (Atoi (stem name)).1 = _
        rw [hv, if_pos hr]
      · intro hr
        show (Atoi (stem name)).1 = _
        rw [hv, if_neg (by omega), if_pos hr]
    · intro hdec
      rw [hdec] at hv
      simp only at hv
      refine ⟨?_, ?_⟩
      · intro hr
        have hr' : digitsValue 0 (leadingDigits (stem name)) ≤ maxUint64 := hr
        show (Atoi (stem name)).1 = _
        rw [hv, if_neg (by omega)]
      · intro hr
        show (Atoi (stem name)).1 = _
        rw [hv, if_pos hr]

theorem source_emits_selected_witness :
    (SourceSolutions [ascii "7.go", ascii "validate.go"]).map (·.Path)
      = [ascii "7.go", ascii "validate.go"].filter selected :=
  (source_emits_selected [ascii "7.go", ascii "validate.go"]).1

/-- C7, as stated, fails: the listing "a.go", "b.go" has two distinct names and both emitted
descriptors have the id 0, which is neither positive nor distinct from the other. -/
theorem duplicate_ids_counterexample :
    [ascii "a.go", ascii "b.go"].Nodup ∧
    (SourceSolutions [ascii "a.go", ascii "b.go"]).map (·.Problem) = [0, 0] ∧
    ¬ ((SourceSolutions [ascii "a.go", ascii "b.go"]).map (·.Problem)).Nodup := by
  refine ⟨by decide, by decide, by decide⟩

/-- C7, amended: for a directory listing with pairwise distinct names in which the stem of
every selected entry is a canonical numeral of a positive `int` (digits only, no leading zero,
below `2^63`), the ids of the emitted descriptors are pairwise distinct positive integers, each
the number its stem denotes. -/
theorem canonical_ids_distinct_positive (files : List GoString) (hnames : files.Nodup)
    (hcanon : ∀ name ∈ files, selected name = true → isCanonicalId (stem name)) :
    ((SourceSolutions files).map (·.Problem)).Nodup ∧
    ∀ d ∈ SourceSolutions files,
      0 < d.Problem ∧ d.Problem = (digitsValue 0 (stem d.Path) : Int) := by
  rw [SourceSolutions_eq]
  constructor
  · rw [List.map_map]
    refine List.Nodup.map_on ?_ (hnames.filter _)
    intro a ha b hb hab
    rw [List.mem_filter] at ha hb
    have ca := hcanon a ha.1 ha.2
    have cb := hcanon b hb.1 hb.2
    simp only [Function.comp] at hab
    rw [Atoi_of_canonical _ ca, Atoi_of_canonical _ cb] at hab
    have hst : stem a = stem b := isCanonicalId_inj _ _ ca cb (by exact_mod_cast hab)
    have ea : Ext a = ascii ".go" := by
      have := ha.2
      unfold selected at this
      exact (decide_eq_true_iff.mp this).1
    have eb : Ext b = ascii ".go" := by
      have := hb.2
      unfold selected at this
      exact (decide_eq_true_iff.mp this).1
    rw [← stem_append_Ext a, ← stem_append_Ext b, hst, ea, eb]
  · intro d hd
    obtain ⟨name, hname, rfl⟩ := List.mem_map.mp hd
    rw [List.mem_filter] at hname
    have c := hcanon name hname.1 hname.2
    have hb := isCanonicalId_bounds _ c
    have hA := Atoi_of_canonical _ c
    simp only
    rw [hA]
    exact ⟨by exact_mod_cast hb.2.2, rfl⟩

theorem canonical_ids_distinct_positive_witness :
    ((SourceSolutions [ascii "1.go", ascii "12.go", ascii "validate.go"]).map
      (·.Problem)).Nodup ∧
    (SourceSolutions [ascii "1.go", ascii "12.go", ascii "validate.go"]).map (·.Problem)
      = [1, 12] :=
  ⟨(canonical_ids_distinct_positive [ascii "1.go", ascii "12.go", ascii "validate.go"]
      (by decide) (by decide)).1, by decide⟩

/-! ## Lemmas on the goroutines -/

theorem get?_split {α : Type} (l : List α) (i : Nat) (w : α) (h : l.get? i = some w) :
    ∃ l₁ l₂, l = l₁ ++ w :: l₂ ∧ l₁.length = i ∧ ∀ w', l.set i w' = l₁ ++ w' :: l₂ := by
  induction l generalizing i with
  | nil => simp at h
  | cons x rest ih =>
    cases i with
    | zero =>
      simp only [List.get?_cons_zero, Option.some.injEq] at h
      subst h
      exact ⟨[], rest, rfl, rfl, fun w' => rfl⟩
    | succ j =>
      simp only [List.get?_cons_succ] at h
      obtain ⟨l₁, l₂, h1, h2, h3⟩ := ih j h
      refine ⟨x :: l₁, l₂, by rw [h1]; rfl, by simp [h2], ?_⟩
      intro w'
      simp only [List.set_cons_succ, h3 w', List.cons_append]

theorem step_alive {exec : GoString → Option GoString} {answers : List GoString}
    {s s' : State} {a : Action} (h : step exec answers s a = some s') :
    s.exited = none ∧ s.main ≠ MainAt.returned := by
  by_cases hg : s.exited ≠ none ∨ s.main = MainAt.returned
  · unfold step at h
    rw [if_pos hg] at h
    exact Option.noConfusion h
  · constructor
    · by_contra hc
      exact hg (Or.inl hc)
    · intro hc
      exact hg (Or.inr hc)

theorem step_guard {exec : GoString → Option GoString} {answers : List GoString}
    {s s' : State} {a : Action} (h : step exec answers s a = some s') :
    ¬ (s.exited ≠ none ∨ s.main = MainAt.returned) := by
  have := step_alive h
  intro hc
  rcases hc with hc | hc
  · exact hc this.1
  · exact this.2 hc

theorem step_handoff {exec : GoString → Option GoString} {answers : List GoString}
    {s s' : State} {i : Nat} (h : step exec answers s (Action.handoff i) = some s') :
    ∃ d rest l₁ l₂, s.pending = d :: rest ∧ s.workers = l₁ ++ Worker.receiving :: l₂ ∧
      l₁.length = i ∧
      s' = { s with pending := rest, workers := l₁ ++ Worker.running d :: l₂,
                    received := s.received ++ [(i, d)] } := by
  have hg := step_guard h
  unfold step at h
  rw [if_neg hg] at h
  simp only at h
  split at h
  · rename_i d rest hp hw
    obtain ⟨l₁, l₂, h1, h2, h3⟩ := get?_split _ _ _ hw
    refine ⟨d, rest, l₁, l₂, hp, h1, h2, ?_⟩
    rw [← h3]
    exact (Option.some.inj h).symm
  · exact Option.noConfusion h

theorem step_sourceReturn {exec : GoString → Option GoString} {answers : List GoString}
    {s s' : State} (h : step exec answers s Action.sourceReturn = some s') :
    s.pending = [] ∧ s.sourceDone = false ∧ s' = { s with sourceDone := true } := by
  have hg := step_guard h
  unfold step at h
  rw [if_neg hg] at h
  simp only at h
  split at h
  · rename_i hp hw
    exact ⟨hp, hw, (Option.some.inj h).symm⟩
  · exact Option.noConfusion h

theorem step_exec {exec : GoString → Option GoString} {answers : List GoString}
    {s s' : State} {i : Nat} (h : step exec answers s (Action.exec i) = some s') :
    ∃ d l₁ l₂, s.workers = l₁ ++ Worker.running d :: l₂ ∧ l₁.length = i ∧
      ((∃ r, runOne exec d = some r ∧
          s' = { s with workers := l₁ ++ Worker.sending r :: l₂ }) ∨
       (runOne exec d = none ∧ s' = { s with exited := some (Exit.fatalf d) })) := by
  have hg := step_guard h
  unfold step at h
  rw [if_neg hg] at h
  simp only at h
  split at h
  · rename_i d hw
    obtain ⟨l₁, l₂, h1, h2, h3⟩ := get?_split _ _ _ hw
    refine ⟨d, l₁, l₂, h1, h2, ?_⟩
    split at h
    · rename_i r hr
      left
      refine ⟨r, hr, ?_⟩
      rw [← h3]
      exact (Option.some.inj h).symm
    · rename_i hr
      right
      exact ⟨hr, (Option.some.inj h).symm⟩
  · exact Option.noConfusion h

theorem step_deliver {exec : GoString → Option GoString} {answers : List GoString}
    {s s' : State} {i : Nat} (h : step exec answers s (Action.deliver i) = some s') :
    ∃ r l₁ l₂, s.workers = l₁ ++ Worker.sending r :: l₂ ∧ l₁.length = i ∧
      s.main = MainAt.collecting ∧
      s' = { s with workers := l₁ ++ Worker.receiving :: l₂,
                    collected := s.collected ++ [r] } := by
  have hg := step_guard h
  unfold step at h
  rw [if_neg hg] at h
  simp only at h
  split at h
  · rename_i r hw hm
    obtain ⟨l₁, l₂, h1, h2, h3⟩ := get?_split _ _ _ hw
    refine ⟨r, l₁, l₂, h1, h2, hm, ?_⟩
    rw [← h3]
    exact (Option.some.inj h).symm
  · exact Option.noConfusion h

theorem step_workerReturn {exec : GoString → Option GoString} {answers : List GoString}
    {s s' : State} {i : Nat} (h : step exec answers s (Action.workerReturn i) = some s') :
    ∃ l₁ l₂, s.workers = l₁ ++ Worker.receiving :: l₂ ∧ l₁.length = i ∧
      s.sourceDone = true ∧ s' = { s with workers := l₁ ++ Worker.done :: l₂ } := by
  have hg := step_guard h
  unfold step at h
  rw [if_neg hg] at h
  simp only at h
  split at h
  · rename_i hw hm
    obtain ⟨l₁, l₂, h1, h2, h3⟩ := get?_split _ _ _ hw
    refine ⟨l₁, l₂, h1, h2, hm, ?_⟩
    rw [← h3]
    exact (Option.some.inj h).symm
  · exact Option.noConfusion h

theorem step_closeResults {exec : GoString → Option GoString} {answers : List GoString}
    {s s' : State} (h : step exec answers s Action.closeResults = some s') :
    s.closer = false ∧ (∀ w ∈ s.workers, w = Worker.done) ∧
      s' = { s with closer := true, closes := s.closes + 1 } := by
  have hg := step_guard h
  unfold step at h
  rw [if_neg hg] at h
  simp only at h
  split_ifs at h with hc
  exact ⟨hc.1, hc.2, (Option.some.inj h).symm⟩

theorem step_endCollect {exec : GoString → Option GoString} {answers : List GoString}
    {s s' : State} {sorted : List Solution}
    (h : step exec answers s (Action.endCollect sorted) = some s') :
    s.main = MainAt.collecting ∧ 1 ≤ s.closes ∧ IsSortSliceOutput s.collected sorted ∧
      s' = { s with main := MainAt.reporting sorted } := by
  have hg := step_guard h
  unfold step at h
  rw [if_neg hg] at h
  simp only at h
  split at h
  · rename_i hm
    split_ifs at h with hc
    exact ⟨hm, hc.1, hc.2, (Option.some.inj h).symm⟩
  · exact Option.noConfusion h

theorem step_report {exec : GoString → Option GoString} {answers : List GoString}
    {s s' : State} (h : step exec answers s Action.report = some s') :
    ∃ x rest, s.main = MainAt.reporting (x :: rest) ∧
      ((∃ line, reportLine answers x = some line ∧
          s' = { s with printed := s.printed ++ [line], main := MainAt.reporting rest }) ∨
       (reportLine answers x = none ∧ s' = { s with exited := some (Exit.indexPanic x) })) := by
  have hg := step_guard h
  unfold step at h
  rw [if_neg hg] at h
  simp only at h
  split at h
  · rename_i x rest hm
    refine ⟨x, rest, hm, ?_⟩
    split at h
    · rename_i line hl
      left
      exact ⟨line, hl, (Option.some.inj h).symm⟩
    · rename_i hl
      right
      exact ⟨hl, (Option.some.inj h).symm⟩
  · exact Option.noConfusion h

theorem step_mainReturn {exec : GoString → Option GoString} {answers : List GoString}
    {s s' : State} (h : step exec answers s Action.mainReturn = some s') :
    s.main = MainAt.reporting [] ∧ s' = { s with main := MainAt.returned } := by
  have hg := step_guard h
  unfold step at h
  rw [if_neg hg] at h
  simp only at h
  split at h
  · rename_i hm
    exact ⟨hm, (Option.some.inj h).symm⟩
  · exact Option.noConfusion h

theorem inflight_split (l₁ l₂ : List Worker) (w : Worker) :
    inflight (l₁ ++ w :: l₂) = inflight l₁ ++ (w.held ++ inflight l₂) := by
  simp [inflight]

theorem inflight_replicate (n : Nat) : inflight (List.replicate n Worker.receiving) = [] := by
  induction n with
  | zero => rfl
  | succ n ih =>
    rw [List.replicate_succ]
    have := inflight_split [] (List.replicate n Worker.receiving) Worker.receiving
    simp only [List.nil_append] at this
    rw [this, ih]
    rfl

theorem inflight_of_done (l : List Worker) (h : ∀ w ∈ l, w = Worker.done) : inflight l = [] := by
  induction l with
  | nil => rfl
  | cons w rest ih =>
    have hw := h w (List.mem_cons_self _ _)
    subst hw
    have := inflight_split [] rest Worker.done
    simp only [List.nil_append] at this
    rw [this, ih (fun w hw => h w (List.mem_cons_of_mem _ hw))]
    rfl

theorem runOne_ident {exec : GoString → Option GoString} {d r : Solution}
    (h : runOne exec d = some r) :
    ident r = ident d ∧ ∃ out, exec r.Path = some out ∧ r.Answer = TrimSuffix out [10] := by
  unfold runOne at h
  cases he : exec d.Path with
  | none => rw [he] at h; exact Option.noConfusion h
  | some out =>
    rw [he] at h
    have := Option.some.inj h
    subst this
    exact ⟨rfl, out, he, rfl⟩

theorem Inv_init (exec : GoString → Option GoString) (answers : List GoString)
    (files : List GoString) (n : Nat) : Inv exec answers files n (init files n) where
  order := rfl
  index := fun p hp => absurd hp (List.not_mem_nil p)
  count := List.length_replicate _ _
  conserve := by
    show ((inflight (List.replicate n Worker.receiving) ++ []).map ident).Perm _
    rw [inflight_replicate]
    exact List.Perm.refl _
  answered := by
    intro r hr
    rcases hr with hr | hr
    · exact absurd hr (List.not_mem_nil r)
    · have := List.eq_of_mem_replicate hr
      exact Worker.noConfusion this
  runningInv := by
    intro d hd
    have := List.eq_of_mem_replicate hd
    exact Worker.noConfusion this
  srcDone := fun h => Bool.noConfusion h
  wdone := by
    intro hd
    have := List.eq_of_mem_replicate hd
    exact Worker.noConfusion this
  closerInv := rfl
  closed := fun h => Bool.noConfusion h
  mainInv := fun h => absurd rfl h
  quiet := fun _ => rfl
  fatal := fun d h => Option.noConfusion h
  reportInv := fun rest h => MainAt.noConfusion h
  returnedInv := fun h => MainAt.noConfusion h
  panicInv := fun x h => Option.noConfusion h

theorem mem_replace {α : Type} {l₁ l₂ : List α} {w w' x : α} (h : x ∈ l₁ ++ w' :: l₂) :
    x = w' ∨ x ∈ l₁ ++ w :: l₂ := by
  rcases List.mem_append.mp h with h | h
  · exact Or.inr (List.mem_append_left _ h)
  · rcases List.mem_cons.mp h with h | h
    · exact Or.inl h
    · exact Or.inr (List.mem_append_right _ (List.mem_cons_of_mem _ h))

theorem mem_middle {α : Type} (l₁ l₂ : List α) (w : α) : w ∈ l₁ ++ w :: l₂ :=
  List.mem_append_right _ (List.mem_cons_self _ _)

theorem Inv_handoff {exec : GoString → Option GoString} {answers files : List GoString}
    {n : Nat} {s s' : State} {i : Nat} (hinv : Inv exec answers files n s)
    (h : step exec answers s (Action.handoff i) = some s') : Inv exec answers files n s' := by
  have halive := step_alive h
  obtain ⟨d, rest, l₁, l₂, hp, hw, hi, rfl⟩ := step_handoff h
  have hrecv : Worker.receiving ∈ s.workers := by rw [hw]; exact mem_middle _ _ _
  have hcloser : s.closer ≠ true := by
    intro hc
    exact Worker.noConfusion (hinv.closed hc _ hrecv)
  refine
    { order := ?_, index := ?_, count := ?_, conserve := ?_, answered := ?_, runningInv := ?_,
      srcDone := ?_, wdone := ?_, closerInv := hinv.closerInv, closed := ?_,
      mainInv := hinv.mainInv, quiet := hinv.quiet, fatal := ?_, reportInv := hinv.reportInv,
      returnedInv := hinv.returnedInv, panicInv := ?_ }
  · have := hinv.order
    rw [hp] at this
    simpa using this
  · intro p hp'
    rcases List.mem_append.mp hp' with hp' | hp'
    · exact hinv.index p hp'
    · have hpe : p = (i, d) := by simpa using hp'
      rw [hpe, ← hinv.count, hw, ← hi]
      simp
  · rw [← hinv.count, hw]
    simp
  · have := hinv.conserve
    rw [hw, inflight_split] at this
    show ((inflight (l₁ ++ Worker.running d :: l₂) ++ s.collected).map ident).Perm
      (((s.received ++ [(i, d)]).map Prod.snd).map ident)
    rw [inflight_split]
    simp only [Worker.held, List.nil_append, List.singleton_append, List.map_append,
      List.map_cons, List.map_nil, List.append_assoc, List.cons_append] at this ⊢
    exact (List.perm_middle.trans (this.cons _)).trans
      (List.perm_append_singleton _ _).symm
  · intro r hr
    apply hinv.answered r
    rcases hr with hr | hr
    · exact Or.inl hr
    · right
      rw [hw]
      rcases mem_replace (w := Worker.receiving) hr with hr | hr
      · exact Worker.noConfusion hr
      · exact hr
  · intro d' hd'
    show d' ∈ (s.received ++ [(i, d)]).map Prod.snd
    rw [List.map_append, List.mem_append]
    rcases mem_replace (w := Worker.receiving) hd' with hd' | hd'
    · right
      have : d' = d := Worker.running.inj hd'
      simp [this]
    · left
      rw [← hw] at hd'
      exact hinv.runningInv d' hd'
  · intro hsd
    have := hinv.srcDone hsd
    rw [hp] at this
    exact List.noConfusion this
  · intro hd
    apply hinv.wdone
    rw [hw]
    rcases mem_replace (w := Worker.receiving) hd with hd | hd
    · exact Worker.noConfusion hd
    · exact hd
  · intro hc
    exact absurd hc hcloser
  · intro d' hd'
    have : s.exited = some (Exit.fatalf d') := hd'
    rw [halive.1] at this
    exact Option.noConfusion this
  · intro x hx
    have : s.exited = some (Exit.indexPanic x) := hx
    rw [halive.1] at this
    exact Option.noConfusion this

theorem Inv_sourceReturn {exec : GoString → Option GoString} {answers files : List GoString}
    {n : Nat} {s s' : State} (hinv : Inv exec answers files n s)
    (h : step exec answers s Action.sourceReturn = some s') : Inv exec answers files n s' := by
  obtain ⟨hp, _, rfl⟩ := step_sourceReturn h
  exact
    { order := hinv.order, index := hinv.index, count := hinv.count, conserve := hinv.conserve,
      answered := hinv.answered, runningInv := hinv.runningInv, srcDone := fun _ => hp,
      wdone := fun _ => rfl, closerInv := hinv.closerInv, closed := hinv.closed,
      mainInv := hinv.mainInv, quiet := hinv.quiet, fatal := hinv.fatal,
      reportInv := hinv.reportInv, returnedInv := hinv.returnedInv, panicInv := hinv.panicInv }

theorem Inv_exec {exec : GoString → Option GoString} {answers files : List GoString}
    {n : Nat} {s s' : State} {i : Nat} (hinv : Inv exec answers files n s)
    (h : step exec answers s (Action.exec i) = some s') : Inv exec answers files n s' := by
  have halive := step_alive h
  obtain ⟨d, l₁, l₂, hw, hi, hcase⟩ := step_exec h
  have hrun : Worker.running d ∈ s.workers := by rw [hw]; exact mem_middle _ _ _
  have hcloser : s.closer ≠ true := by
    intro hc
    exact Worker.noConfusion (hinv.closed hc _ hrun)
  rcases hcase with ⟨r, hr, rfl⟩ | ⟨hr, rfl⟩
  · obtain ⟨hid, hout⟩ := runOne_ident hr
    refine
      { order := hinv.order, index := hinv.index, count := ?_, conserve := ?_, answered := ?_,
        runningInv := ?_, srcDone := hinv.srcDone, wdone := ?_, closerInv := hinv.closerInv,
        closed := ?_, mainInv := hinv.mainInv, quiet := hinv.quiet, fatal := hinv.fatal,
        reportInv := hinv.reportInv, returnedInv := hinv.returnedInv,
        panicInv := hinv.panicInv }
    · rw [← hinv.count, hw]
      simp
    · have := hinv.conserve
      rw [hw, inflight_split] at this
      show ((inflight (l₁ ++ Worker.sending r :: l₂) ++ s.collected).map ident).Perm _
      rw [inflight_split]
      simp only [Worker.held, List.singleton_append, List.map_append, List.map_cons,
        List.append_assoc, List.cons_append] at this ⊢
      rw [hid]
      exact this
    · intro r' hr'
      rcases hr' with hr' | hr'
      · exact hinv.answered r' (Or.inl hr')
      · rcases mem_replace (w := Worker.running d) hr' with hr' | hr'
        · have : r' = r := Worker.sending.inj hr'
          rw [this]
          exact hout
        · rw [← hw] at hr'
          exact hinv.answered r' (Or.inr hr')
    · intro d' hd'
      apply hinv.runningInv
      rw [hw]
      rcases mem_replace (w := Worker.running d) hd' with hd' | hd'
      · exact Worker.noConfusion hd'
      · exact hd'
    · intro hd
      apply hinv.wdone
      rw [hw]
      rcases mem_replace (w := Worker.running d) hd with hd | hd
      · exact Worker.noConfusion hd
      · exact hd
    · intro hc
      exact absurd hc hcloser
  · refine
      { order := hinv.order, index := hinv.index, count := hinv.count,
        conserve := hinv.conserve, answered := hinv.answered, runningInv := hinv.runningInv,
        srcDone := hinv.srcDone, wdone := hinv.wdone, closerInv := hinv.closerInv,
        closed := hinv.closed, mainInv := hinv.mainInv, quiet := hinv.quiet, fatal := ?_,
        reportInv := hinv.reportInv, returnedInv := hinv.returnedInv, panicInv := ?_ }
    · intro d' hd'
      have hdd : d = d' := Exit.fatalf.inj (Option.some.inj hd')
      subst hdd
      refine ⟨?_, hr, hinv.runningInv d hrun⟩
      by_contra hm
      exact hcloser (hinv.mainInv hm)
    · intro x hx
      have := Option.some.inj hx
      exact Exit.noConfusion this

theorem Inv_deliver {exec : GoString → Option GoString} {answers files : List GoString}
    {n : Nat} {s s' : State} {i : Nat} (hinv : Inv exec answers files n s)
    (h : step exec answers s (Action.deliver i) = some s') : Inv exec answers files n s' := by
  have halive := step_alive h
  obtain ⟨r, l₁, l₂, hw, hi, hm, rfl⟩ := step_deliver h
  have hsend : Worker.sending r ∈ s.workers := by rw [hw]; exact mem_middle _ _ _
  have hcloser : s.closer ≠ true := by
    intro hc
    exact Worker.noConfusion (hinv.closed hc _ hsend)
  refine
    { order := hinv.order, index := hinv.index, count := ?_, conserve := ?_, answered := ?_,
      runningInv := ?_, srcDone := hinv.srcDone, wdone := ?_, closerInv := hinv.closerInv,
      closed := ?_, mainInv := hinv.mainInv, quiet := hinv.quiet, fatal := hinv.fatal,
      reportInv := ?_, returnedInv := ?_, panicInv := hinv.panicInv }
  · rw [← hinv.count, hw]
    simp
  · have := hinv.conserve
    rw [hw, inflight_split] at this
    show ((inflight (l₁ ++ Worker.receiving :: l₂) ++ (s.collected ++ [r])).map ident).Perm _
    rw [inflight_split]
    simp only [Worker.held, List.nil_append, List.singleton_append, List.map_append,
      List.map_cons, List.map_nil, List.append_assoc, List.cons_append] at this ⊢
    refine List.Perm.trans ?_ this
    have e1 : List.map ident (inflight l₁) ++
        (List.map ident (inflight l₂) ++ (List.map ident s.collected ++ [ident r])) =
        (List.map ident (inflight l₁) ++
          (List.map ident (inflight l₂) ++ List.map ident s.collected)) ++ [ident r] := by
      simp only [List.append_assoc]
    rw [e1]
    exact (List.perm_append_singleton _ _).trans List.perm_middle.symm
  · intro r' hr'
    rcases hr' with hr' | hr'
    · rcases List.mem_append.mp hr' with hr' | hr'
      · exact hinv.answered r' (Or.inl hr')
      · have : r' = r := by simpa using hr'
        rw [this]
        exact hinv.answered r (Or.inr hsend)
    · rcases mem_replace (w := Worker.sending r) hr' with hr' | hr'
      · exact Worker.noConfusion hr'
      · rw [← hw] at hr'
        exact hinv.answered r' (Or.inr hr')
  · intro d' hd'
    apply hinv.runningInv
    rw [hw]
    rcases mem_replace (w := Worker.sending r) hd' with hd' | hd'
    · exact Worker.noConfusion hd'
    · exact hd'
  · intro hd
    apply hinv.wdone
    rw [hw]
    rcases mem_replace (w := Worker.sending r) hd with hd | hd
    · exact Worker.noConfusion hd
    · exact hd
  · intro hc
    exact absurd hc hcloser
  · intro rest hrest
    have : s.main = MainAt.reporting rest := hrest
    rw [hm] at this
    exact MainAt.noConfusion this
  · intro hret
    have : s.main = MainAt.returned := hret
    rw [hm] at this
    exact MainAt.noConfusion this

theorem Inv_workerReturn {exec : GoString → Option GoString} {answers files : List GoString}
    {n : Nat} {s s' : State} {i : Nat} (hinv : Inv exec answers files n s)
    (h : step exec answers s (Action.workerReturn i) = some s') :
    Inv exec answers files n s' := by
  obtain ⟨l₁, l₂, hw, hi, hsd, rfl⟩ := step_workerReturn h
  have hrecv : Worker.receiving ∈ s.workers := by rw [hw]; exact mem_middle _ _ _
  have hcloser : s.closer ≠ true := by
    intro hc
    exact Worker.noConfusion (hinv.closed hc _ hrecv)
  refine
    { order := hinv.order, index := hinv.index, count := ?_, conserve := ?_, answered := ?_,
      runningInv := ?_, srcDone := hinv.srcDone, wdone := fun _ => hsd,
      closerInv := hinv.closerInv, closed := ?_, mainInv := hinv.mainInv, quiet := hinv.quiet,
      fatal := hinv.fatal, reportInv := hinv.reportInv, returnedInv := hinv.returnedInv,
      panicInv := hinv.panicInv }
  · rw [← hinv.count, hw]
    simp
  · have := hinv.conserve
    rw [hw, inflight_split] at this
    show ((inflight (l₁ ++ Worker.done :: l₂) ++ s.collected).map ident).Perm _
    rw [inflight_split]
    exact this
  · intro r' hr'
    rcases hr' with hr' | hr'
    · exact hinv.answered r' (Or.inl hr')
    · rcases mem_replace (w := Worker.receiving) hr' with hr' | hr'
      · exact Worker.noConfusion hr'
      · rw [← hw] at hr'
        exact hinv.answered r' (Or.inr hr')
  · intro d' hd'
    apply hinv.runningInv
    rw [hw]
    rcases mem_replace (w := Worker.receiving) hd' with hd' | hd'
    · exact Worker.noConfusion hd'
    · exact hd'
  · intro hc
    exact absurd hc hcloser

theorem Inv_closeResults {exec : GoString → Option GoString} {answers files : List GoString}
    {n : Nat} {s s' : State} (hinv : Inv exec answers files n s)
    (h : step exec answers s Action.closeResults = some s') : Inv exec answers files n s' := by
  obtain ⟨hc, hall, rfl⟩ := step_closeResults h
  refine
    { order := hinv.order, index := hinv.index, count := hinv.count, conserve := hinv.conserve,
      answered := hinv.answered, runningInv := hinv.runningInv, srcDone := hinv.srcDone,
      wdone := hinv.wdone, closerInv := ?_, closed := fun _ => hall, mainInv := fun _ => rfl,
      quiet := hinv.quiet, fatal := hinv.fatal, reportInv := hinv.reportInv,
      returnedInv := hinv.returnedInv, panicInv := hinv.panicInv }
  have := hinv.closerInv
  rw [hc] at this
  show s.closes + 1 = if true = true then 1 else 0
  rw [this]
  rfl

theorem Inv_endCollect {exec : GoString → Option GoString} {answers files : List GoString}
    {n : Nat} {s s' : State} {sorted : List Solution} (hinv : Inv exec answers files n s)
    (h : step exec answers s (Action.endCollect sorted) = some s') :
    Inv exec answers files n s' := by
  have halive := step_alive h
  have hnp : ∀ x, s.exited = some (Exit.indexPanic x) → False := by
    intro x hx
    rw [halive.1] at hx
    exact Option.noConfusion hx
  obtain ⟨hm, hcl, hsorted, rfl⟩ := step_endCollect h
  have hcloser : s.closer = true := by
    have := hinv.closerInv
    by_contra hc
    rw [if_neg hc] at this
    omega
  refine
    { order := hinv.order, index := hinv.index, count := hinv.count, conserve := hinv.conserve,
      answered := hinv.answered, runningInv := hinv.runningInv, srcDone := hinv.srcDone,
      wdone := hinv.wdone, closerInv := hinv.closerInv, closed := hinv.closed,
      mainInv := fun _ => hcloser, quiet := ?_, fatal := ?_, reportInv := ?_,
      returnedInv := ?_, panicInv := fun x hx => (hnp x hx).elim }
  · intro hc
    exact MainAt.noConfusion hc
  · intro d hd
    have : s.exited = some (Exit.fatalf d) := hd
    rw [halive.1] at this
    exact Option.noConfusion this
  · intro rest hrest
    have hrs : sorted = rest := MainAt.reporting.inj hrest
    subst hrs
    exact ⟨[], hsorted, hinv.quiet hm, fun t ht => absurd ht (List.not_mem_nil t)⟩
  · intro hc
    exact MainAt.noConfusion hc

theorem Inv_report {exec : GoString → Option GoString} {answers files : List GoString}
    {n : Nat} {s s' : State} (hinv : Inv exec answers files n s)
    (h : step exec answers s Action.report = some s') : Inv exec answers files n s' := by
  have halive := step_alive h
  have hnp : ∀ x, s.exited = some (Exit.indexPanic x) → False := by
    intro x hx
    rw [halive.1] at hx
    exact Option.noConfusion hx
  obtain ⟨x, rest, hm, hcase⟩ := step_report h
  have hcloser : s.closer = true := hinv.mainInv (by rw [hm]; exact fun hc => MainAt.noConfusion hc)
  rcases hcase with ⟨line, hl, rfl⟩ | ⟨hl, rfl⟩
  · refine
      { order := hinv.order, index := hinv.index, count := hinv.count,
        conserve := hinv.conserve, answered := hinv.answered, runningInv := hinv.runningInv,
        srcDone := hinv.srcDone, wdone := hinv.wdone, closerInv := hinv.closerInv,
        closed := hinv.closed, mainInv := fun _ => hcloser, quiet := ?_, fatal := ?_,
        reportInv := ?_, returnedInv := ?_, panicInv := fun x hx => (hnp x hx).elim }
    · intro hc
      exact MainAt.noConfusion hc
    · intro d hd
      have : s.exited = some (Exit.fatalf d) := hd
      rw [halive.1] at this
      exact Option.noConfusion this
    · intro rest' hrest
      have hrs : rest = rest' := MainAt.reporting.inj hrest
      subst hrs
      obtain ⟨handled, hsort, hprinted, hvalid⟩ := hinv.reportInv (x :: rest) hm
      refine ⟨handled ++ [x], by simpa using hsort, ?_, ?_⟩
      · show s.printed ++ [line] = _
        rw [hprinted, List.filterMap_append]
        simp [hl]
      · intro t ht
        rcases List.mem_append.mp ht with ht | ht
        · exact hvalid t ht
        · have : t = x := by simpa using ht
          rw [this, hl]
          exact fun hc => Option.noConfusion hc
    · intro hc
      exact MainAt.noConfusion hc
  · refine
      { order := hinv.order, index := hinv.index, count := hinv.count,
        conserve := hinv.conserve, answered := hinv.answered, runningInv := hinv.runningInv,
        srcDone := hinv.srcDone, wdone := hinv.wdone, closerInv := hinv.closerInv,
        closed := hinv.closed, mainInv := hinv.mainInv, quiet := hinv.quiet, fatal := ?_,
        reportInv := hinv.reportInv, returnedInv := hinv.returnedInv, panicInv := ?_ }
    · intro d hd
      have := Option.some.inj hd
      exact Exit.noConfusion this
    · intro x' hx'
      have hxx : x = x' := Exit.indexPanic.inj (Option.some.inj hx')
      subst hxx
      exact ⟨rest, hm, hl⟩

theorem Inv_mainReturn {exec : GoString → Option GoString} {answers files : List GoString}
    {n : Nat} {s s' : State} (hinv : Inv exec answers files n s)
    (h : step exec answers s Action.mainReturn = some s') : Inv exec answers files n s' := by
  have halive := step_alive h
  obtain ⟨hm, rfl⟩ := step_mainReturn h
  have hcloser : s.closer = true := hinv.mainInv (by rw [hm]; exact fun hc => MainAt.noConfusion hc)
  refine
    { order := hinv.order, index := hinv.index, count := hinv.count, conserve := hinv.conserve,
      answered := hinv.answered, runningInv := hinv.runningInv, srcDone := hinv.srcDone,
      wdone := hinv.wdone, closerInv := hinv.closerInv, closed := hinv.closed,
      mainInv := fun _ => hcloser, quiet := ?_, fatal := ?_, reportInv := ?_,
      returnedInv := ?_, panicInv := ?_ }
  · intro hc
    exact MainAt.noConfusion hc
  · intro d hd
    have : s.exited = some (Exit.fatalf d) := hd
    rw [halive.1] at this
    exact Option.noConfusion this
  · intro rest hrest
    exact MainAt.noConfusion hrest
  · intro _
    obtain ⟨handled, hsort, hprinted, hvalid⟩ := hinv.reportInv [] hm
    rw [List.append_nil] at hsort
    refine ⟨handled, hsort, ?_⟩
    have := reportLoop_of_valid answers handled hvalid
    show reportLoop answers handled = ⟨s.printed, none⟩
    rw [hprinted, ← this.2.1, ← this.1]
  · intro x hx
    have : s.exited = some (Exit.indexPanic x) := hx
    rw [halive.1] at this
    exact Option.noConfusion this

/-- Every step preserves the invariant. -/
theorem Inv_step {exec : GoString → Option GoString} {answers files : List GoString}
    {n : Nat} {s s' : State} {a : Action} (hinv : Inv exec answers files n s)
    (h : step exec answers s a = some s') : Inv exec answers files n s' := by
  cases a with
  | handoff i => exact Inv_handoff hinv h
  | sourceReturn => exact Inv_sourceReturn hinv h
  | exec i => exact Inv_exec hinv h
  | deliver i => exact Inv_deliver hinv h
  | workerReturn i => exact Inv_workerReturn hinv h
  | closeResults => exact Inv_closeResults hinv h
  | endCollect sorted => exact Inv_endCollect hinv h
  | report => exact Inv_report hinv h
  | mainReturn => exact Inv_mainReturn hinv h

theorem Inv_run {exec : GoString → Option GoString} {answers files : List GoString}
    {n : Nat} (trace : List Action) {s s' : State} (hinv : Inv exec answers files n s)
    (h : run exec answers s trace = some s') : Inv exec answers files n s' := by
  induction trace generalizing s with
  | nil =>
    have : s = s' := Option.some.inj h
    rw [← this]
    exact hinv
  | cons a rest ih =>
    unfold run at h
    cases hs : step exec answers s a with
    | none => rw [hs] at h; exact Option.noConfusion h
    | some s₁ =>
      rw [hs] at h
      exact ih (Inv_step hinv hs) h

/-! ## Progress and termination of the process -/

theorem step_unfold (s : State) (halive : s.exited = none)
    (hmain : s.main ≠ MainAt.returned) :
    ¬ (s.exited ≠ none ∨ s.main = MainAt.returned) := by
  intro hc
  rcases hc with hc | hc
  · exact hc halive
  · exact hmain hc

theorem exec_fail_enabled {exec : GoString → Option GoString} {answers : List GoString}
    {s : State} {i : Nat} {d : Solution} (halive : s.exited = none)
    (hmain : s.main ≠ MainAt.returned) (hw : s.workers.get? i = some (Worker.running d))
    (hfail : runOne exec d = none) :
    step exec answers s (Action.exec i) = some { s with exited := some (Exit.fatalf d) } := by
  unfold step
  rw [if_neg (step_unfold s halive hmain)]
  simp only [hw, hfail]

/-- While the process has neither exited nor returned from `main`, some step is enabled. -/
theorem progress {exec : GoString → Option GoString} {answers files : List GoString}
    {n : Nat} {s : State} (hinv : Inv exec answers files n s) (halive : s.exited = none)
    (hmain : s.main ≠ MainAt.returned) : ∃ a s', step exec answers s a = some s' := by
  have hg := step_unfold s halive hmain
  suffices hs : ∃ a, (step exec answers s a).isSome = true by
    obtain ⟨a, ha⟩ := hs
    obtain ⟨s', hs'⟩ := Option.isSome_iff_exists.mp ha
    exact ⟨a, s', hs'⟩
  cases hm : s.main with
  | returned => exact absurd hm hmain
  | reporting rest =>
    cases rest with
    | nil =>
      refine ⟨Action.mainReturn, ?_⟩
      unfold step
      rw [if_neg hg]
      simp only [hm]
      rfl
    | cons x rest =>
      cases hl : reportLine answers x with
      | none =>
        refine ⟨Action.report, ?_⟩
        unfold step
        rw [if_neg hg]
        simp only [hm, hl]
        rfl
      | some line =>
        refine ⟨Action.report, ?_⟩
        unfold step
        rw [if_neg hg]
        simp only [hm, hl]
        rfl
  | collecting =>
    by_cases hall : ∀ w ∈ s.workers, w = Worker.done
    · cases hc : s.closer with
      | false =>
        refine ⟨Action.closeResults, ?_⟩
        unfold step
        rw [if_neg hg]
        simp only
        rw [if_pos ⟨hc, hall⟩]
        rfl
      | true =>
        have hcl : s.closes = 1 := by
          have := hinv.closerInv
          rw [hc] at this
          simpa using this
        refine ⟨Action.endCollect (sortSlice s.collected), ?_⟩
        unfold step
        rw [if_neg hg]
        simp only [hm]
        rw [if_pos ⟨by omega, sortSlice_isOutput _⟩]
        rfl
    · have hex : ∃ w ∈ s.workers, w ≠ Worker.done := by
        by_contra hc
        apply hall
        intro w hw
        by_contra hne
        exact hc ⟨w, hw, hne⟩
      obtain ⟨w, hw, hne⟩ := hex
      obtain ⟨i, hi⟩ := List.mem_iff_get?.mp hw
      cases w with
      | done => exact absurd rfl hne
      | running d =>
        cases hr : runOne exec d with
        | none =>
          refine ⟨Action.exec i, ?_⟩
          rw [exec_fail_enabled halive hmain hi hr]
          rfl
        | some r =>
          refine ⟨Action.exec i, ?_⟩
          unfold step
          rw [if_neg hg]
          simp only [hi, hr]
          rfl
      | sending r =>
        refine ⟨Action.deliver i, ?_⟩
        unfold step
        rw [if_neg hg]
        simp only [hi, hm]
        rfl
      | receiving =>
        cases hp : s.pending with
        | cons d rest =>
          refine ⟨Action.handoff i, ?_⟩
          unfold step
          rw [if_neg hg]
          simp only [hi, hp]
          rfl
        | nil =>
          cases hsd : s.sourceDone with
          | false =>
            refine ⟨Action.sourceReturn, ?_⟩
            unfold step
            rw [if_neg hg]
            simp only [hp, hsd]
            rfl
          | true =>
            refine ⟨Action.workerReturn i, ?_⟩
            unfold step
            rw [if_neg hg]
            simp only [hi, hsd]
            rfl

theorem weight_split (l₁ l₂ : List Worker) (w : Worker) :
    ((l₁ ++ w :: l₂).map Worker.weight).sum
      = (l₁.map Worker.weight).sum + w.weight + (l₂.map Worker.weight).sum := by
  simp only [List.map_append, List.map_cons, List.sum_append, List.sum_cons]
  omega

/-- Every step decreases the bound `remaining`. -/
theorem remaining_step {exec : GoString → Option GoString} {answers : List GoString}
    {s s' : State} {a : Action} (h : step exec answers s a = some s') :
    remaining s' < remaining s := by
  have halive := step_alive h
  cases a with
  | handoff i =>
    obtain ⟨d, rest, l₁, l₂, hp, hw, hi, rfl⟩ := step_handoff h
    unfold remaining
    simp only [hp, hw, weight_split, Worker.weight, List.length_cons]
    omega
  | sourceReturn =>
    obtain ⟨hp, hsd, rfl⟩ := step_sourceReturn h
    unfold remaining
    simp only [hsd, if_true, Bool.false_eq_true, if_false]
    omega
  | exec i =>
    obtain ⟨d, l₁, l₂, hw, hi, hcase⟩ := step_exec h
    rcases hcase with ⟨r, hr, rfl⟩ | ⟨hr, rfl⟩
    · unfold remaining
      simp only [hw, weight_split, Worker.weight]
      omega
    · unfold remaining
      simp only [halive.1, if_true, reduceCtorEq, if_false]
      omega
  | deliver i =>
    obtain ⟨r, l₁, l₂, hw, hi, hm, rfl⟩ := step_deliver h
    unfold remaining
    simp only [hw, hm, weight_split, Worker.weight, List.length_append, List.length_singleton]
    omega
  | workerReturn i =>
    obtain ⟨l₁, l₂, hw, hi, hsd, rfl⟩ := step_workerReturn h
    unfold remaining
    simp only [hw, weight_split, Worker.weight]
    omega
  | closeResults =>
    obtain ⟨hc, hall, rfl⟩ := step_closeResults h
    unfold remaining
    simp only [hc, if_true, Bool.false_eq_true, if_false]
    omega
  | endCollect sorted =>
    obtain ⟨hm, hcl, hsorted, rfl⟩ := step_endCollect h
    unfold remaining
    simp only [hm, hsorted.1.length_eq]
    omega
  | report =>
    obtain ⟨x, rest, hm, hcase⟩ := step_report h
    rcases hcase with ⟨line, hl, rfl⟩ | ⟨hl, rfl⟩
    · unfold remaining
      simp only [hm, List.length_cons]
      omega
    · unfold remaining
      simp only [halive.1, if_true, reduceCtorEq, if_false]
      omega
  | mainReturn =>
    obtain ⟨hm, rfl⟩ := step_mainReturn h
    unfold remaining
    simp only [hm, List.length_nil]
    omega

/-- A run is no longer than the bound of its first state. -/
theorem remaining_run {exec : GoString → Option GoString} {answers : List GoString}
    (trace : List Action) {s s' : State} (h : run exec answers s trace = some s') :
    remaining s' + trace.length ≤ remaining s := by
  induction trace generalizing s with
  | nil =>
    have : s = s' := Option.some.inj h
    rw [this]
    simp
  | cons a rest ih =>
    unfold run at h
    cases hs : step exec answers s a with
    | none => rw [hs] at h; exact Option.noConfusion h
    | some s₁ =>
      rw [hs] at h
      have h1 := remaining_step hs
      have h2 := ih h
      simp only [List.length_cons]
      omega

/-! ## The fail-fast policy and the delivery of results -/

theorem runOne_eq_none_iff (exec : GoString → Option GoString) (d : Solution) :
    runOne exec d = none ↔ exec d.Path = none := by
  unfold runOne
  cases exec d.Path with
  | none => exact ⟨fun _ => rfl, fun _ => rfl⟩
  | some out => exact ⟨fun h => Option.noConfusion h, fun h => Option.noConfusion h⟩

theorem Doomed_step {exec : GoString → Option GoString} {answers : List GoString}
    {s s' : State} {a : Action} (hd : Doomed exec s)
    (h : step exec answers s a = some s') : Doomed exec s' := by
  have halive := step_alive h
  rcases hd with ⟨d, hmem, hfail⟩ | ⟨d, hex, _⟩
  swap
  · rw [halive.1] at hex
    exact Option.noConfusion hex
  cases a with
  | handoff i =>
    obtain ⟨d', rest, l₁, l₂, hp, hw, hi, rfl⟩ := step_handoff h
    rw [hw] at hmem
    rcases mem_replace (w := Worker.running d') hmem with hc | hc
    · exact Worker.noConfusion hc
    · exact Or.inl ⟨d, hc, hfail⟩
  | sourceReturn =>
    obtain ⟨_, _, rfl⟩ := step_sourceReturn h
    exact Or.inl ⟨d, hmem, hfail⟩
  | exec i =>
    obtain ⟨d', l₁, l₂, hw, hi, hcase⟩ := step_exec h
    rcases hcase with ⟨r, hr, rfl⟩ | ⟨hr, rfl⟩
    · rw [hw] at hmem
      rcases mem_replace (w := Worker.sending r) hmem with hc | hc
      · have hdd : d = d' := Worker.running.inj hc
        rw [← hdd] at hr
        have := (runOne_eq_none_iff exec d).mpr hfail
        rw [hr] at this
        exact Option.noConfusion this
      · exact Or.inl ⟨d, hc, hfail⟩
    · exact Or.inl ⟨d, hmem, hfail⟩
  | deliver i =>
    obtain ⟨r, l₁, l₂, hw, hi, hm, rfl⟩ := step_deliver h
    rw [hw] at hmem
    rcases mem_replace (w := Worker.receiving) hmem with hc | hc
    · exact Worker.noConfusion hc
    · exact Or.inl ⟨d, hc, hfail⟩
  | workerReturn i =>
    obtain ⟨l₁, l₂, hw, hi, hsd, rfl⟩ := step_workerReturn h
    rw [hw] at hmem
    rcases mem_replace (w := Worker.done) hmem with hc | hc
    · exact Worker.noConfusion hc
    · exact Or.inl ⟨d, hc, hfail⟩
  | closeResults =>
    obtain ⟨_, _, rfl⟩ := step_closeResults h
    exact Or.inl ⟨d, hmem, hfail⟩
  | endCollect sorted =>
    obtain ⟨_, _, _, rfl⟩ := step_endCollect h
    exact Or.inl ⟨d, hmem, hfail⟩
  | report =>
    obtain ⟨x, rest, hm, hcase⟩ := step_report h
    rcases hcase with ⟨line, hl, rfl⟩ | ⟨hl, rfl⟩
    · exact Or.inl ⟨d, hmem, hfail⟩
    · exact Or.inl ⟨d, hmem, hfail⟩
  | mainReturn =>
    obtain ⟨_, rfl⟩ := step_mainReturn h
    exact Or.inl ⟨d, hmem, hfail⟩

theorem Doomed_run {exec : GoString → Option GoString} {answers : List GoString}
    (trace : List Action) {s s' : State} (hd : Doomed exec s)
    (h : run exec answers s trace = some s') : Doomed exec s' := by
  induction trace generalizing s with
  | nil =>
    have : s = s' := Option.some.inj h
    rw [← this]
    exact hd
  | cons a rest ih =>
    unfold run at h
    cases hs : step exec answers s a with
    | none => rw [hs] at h; exact Option.noConfusion h
    | some s₁ =>
      rw [hs] at h
      exact ih (Doomed_step hd hs) h

/-- In a doomed state `main` is still collecting and nothing has been printed; if no step is
enabled, the process has been ended by `log.Fatalf`. -/
theorem Doomed_quiet {exec : GoString → Option GoString} {answers files : List GoString}
    {n : Nat} {s : State} (hinv : Inv exec answers files n s) (hd : Doomed exec s) :
    s.printed = [] ∧ s.main = MainAt.collecting ∧
      ((∀ a, step exec answers s a = none) →
        ∃ d, s.exited = some (Exit.fatalf d) ∧ exec d.Path = none) := by
  have hmain : s.main = MainAt.collecting := by
    rcases hd with ⟨d, hmem, _⟩ | ⟨d, hex, _⟩
    · by_contra hm
      exact Worker.noConfusion (hinv.closed (hinv.mainInv hm) _ hmem)
    · exact (hinv.fatal d hex).1
  refine ⟨hinv.quiet hmain, hmain, ?_⟩
  intro hstuck
  cases hex : s.exited with
  | none =>
    have hret : s.main ≠ MainAt.returned := by
      rw [hmain]
      exact fun hc => MainAt.noConfusion hc
    obtain ⟨a, s', hs'⟩ := progress hinv hex hret
    rw [hstuck a] at hs'
    exact Option.noConfusion hs'
  | some e =>
    cases e with
    | fatalf d =>
      exact ⟨d, rfl, (runOne_eq_none_iff exec d).mp (hinv.fatal d hex).2.1⟩
    | indexPanic x =>
      obtain ⟨rest, hm, _⟩ := hinv.panicInv x hex
      rw [hmain] at hm
      exact MainAt.noConfusion hm

/-- Once `main` has left the collection loop, the channel has been closed once, nothing is
left to send, and the collected results are the emitted descriptors, each once. -/
theorem collected_complete {exec : GoString → Option GoString} {answers files : List GoString}
    {n : Nat} {s : State} (hinv : Inv exec answers files n s) (hn : 1 ≤ n)
    (hm : s.main ≠ MainAt.collecting) :
    s.closes = 1 ∧ s.pending = [] ∧
      (s.collected.map ident).Perm ((SourceSolutions files).map ident) := by
  have hc := hinv.mainInv hm
  have hall := hinv.closed hc
  have hcl : s.closes = 1 := by
    have := hinv.closerInv
    rw [hc] at this
    simpa using this
  have hne : s.workers ≠ [] := by
    intro he
    have := hinv.count
    rw [he] at this
    simp at this
    omega
  obtain ⟨w, rest, hw⟩ := List.exists_cons_of_ne_nil hne
  have hwmem : w ∈ s.workers := by rw [hw]; exact List.mem_cons_self _ _
  have hwd := hall w hwmem
  rw [hwd] at hwmem
  have hp := hinv.srcDone (hinv.wdone hwmem)
  refine ⟨hcl, hp, ?_⟩
  have hcons := hinv.conserve
  rw [inflight_of_done _ hall, List.nil_append] at hcons
  have hord := hinv.order
  rw [hp, List.append_nil] at hord
  rw [hord] at hcons
  exact hcons

/-- C9: with at least one worker and an executor that succeeds on every emitted descriptor, in
every state of every run: the descriptors received so far, in order of receipt and each by one
worker, followed by those still to send are exactly the sequence emitted by `SourceSolutions`;
what has been received is held by one worker or collected once; `log.Fatalf` has not run;
`close(solutions)` has run at most once and only after every worker returned; while `main`
collects some step is enabled and the run is bounded, and once `main` has left the collection
loop the channel has been closed exactly once and the ids collected are the ids emitted, as
multisets. -/
theorem pool_delivers_each_once (exec : GoString → Option GoString)
    (answers files : List GoString) (numWorkers : Nat) (trace : List Action) (s : State)
    (hworkers : 1 ≤ numWorkers)
    (hexec : ∀ d ∈ SourceSolutions files, exec d.Path ≠ none)
    (hrun : run exec answers (init files numWorkers) trace = some s) :
    (s.received.map Prod.snd ++ s.pending = SourceSolutions files ∧
      ∀ p ∈ s.received, p.1 < numWorkers) ∧
    ((inflight s.workers ++ s.collected).map ident).Perm
      ((s.received.map Prod.snd).map ident) ∧
    (∀ d, s.exited ≠ some (Exit.fatalf d)) ∧
    (s.closes ≤ 1 ∧ (s.closes = 1 → ∀ w ∈ s.workers, w = Worker.done)) ∧
    (s.main = MainAt.collecting → ∃ a s', step exec answers s a = some s') ∧
    trace.length ≤ remaining (init files numWorkers) ∧
    (s.main ≠ MainAt.collecting →
      s.closes = 1 ∧ s.pending = [] ∧
      (s.collected.map ident).Perm ((SourceSolutions files).map ident) ∧
      (s.collected.map (·.Problem)).Perm ((SourceSolutions files).map (·.Problem))) := by
  have hinv := Inv_run trace (Inv_init exec answers files numWorkers) hrun
  have hnofatal : ∀ d, s.exited ≠ some (Exit.fatalf d) := by
    intro d hd
    obtain ⟨_, hfail, hmem⟩ := hinv.fatal d hd
    have hsrc : d ∈ SourceSolutions files := by
      rw [← hinv.order]
      exact List.mem_append_left _ hmem
    exact hexec d hsrc ((runOne_eq_none_iff exec d).mp hfail)
  refine ⟨⟨hinv.order, hinv.index⟩, hinv.conserve, hnofatal, ⟨?_, ?_⟩, ?_, ?_, ?_⟩
  · have := hinv.closerInv
    split_ifs at this <;> omega
  · intro hc
    apply hinv.closed
    have := hinv.closerInv
    by_contra hne
    rw [if_neg hne] at this
    omega
  · intro hm
    have halive : s.exited = none := by
      cases hex : s.exited with
      | none => rfl
      | some e =>
        cases e with
        | fatalf d => exact absurd hex (hnofatal d)
        | indexPanic x =>
          obtain ⟨rest, hm', _⟩ := hinv.panicInv x hex
          rw [hm] at hm'
          exact MainAt.noConfusion hm'
    exact progress hinv halive (by rw [hm]; exact fun hc => MainAt.noConfusion hc)
  · have := remaining_run trace hrun
    omega
  · intro hm
    obtain ⟨h1, h2, h3⟩ := collected_complete hinv hworkers hm
    refine ⟨h1, h2, h3, ?_⟩
    have := h3.map Prod.snd
    simpa [List.map_map, Function.comp, ident] using this

theorem pool_delivers_each_once_witness :
    ([(⟨[52, 50], ascii "1.go", 1⟩ : Solution)].map (·.Problem)).Perm
      ((SourceSolutions [ascii "1.go", ascii "validate.go"]).map (·.Problem)) :=
  ((pool_delivers_each_once (fun _ => some [52, 50, 10]) [[52, 50]]
      [ascii "1.go", ascii "validate.go"] 1
      [Action.handoff 0, Action.sourceReturn, Action.exec 0, Action.deliver 0,
        Action.workerReturn 0, Action.closeResults,
        Action.endCollect [⟨[52, 50], ascii "1.go", 1⟩], Action.report, Action.mainReturn]
      { pending := [], sourceDone := true, workers := [Worker.done], closer := true,
        closes := 1, collected := [⟨[52, 50], ascii "1.go", 1⟩], main := MainAt.returned,
        printed := [⟨1, ascii "correct", [52, 50], ascii "==", [52, 50]⟩], exited := none,
        received := [(0, ⟨[], ascii "1.go", 1⟩)] }
      (by decide) (by decide) (by decide)).2.2.2.2.2.2
    (by decide)).2.2.2

/-- C6: in every state of every run (at least one worker): if `log.Fatalf` has ended the
process, the invocation of an emitted descriptor had failed, no line has been printed and no
step follows; from a state in which a worker runs an invocation that fails, the step to
`log.Fatalf` is enabled unless the process has exited, every continuation is bounded in
length, has printed nothing and has `main` still collecting, and can only stop by
`log.Fatalf`; once `main` has left the collection loop, hence whenever a line has been
printed, every emitted descriptor has been invoked with success and its result collected. -/
theorem failure_aborts_without_report (exec : GoString → Option GoString)
    (answers files : List GoString) (numWorkers : Nat) (trace : List Action) (s : State)
    (hworkers : 1 ≤ numWorkers)
    (hrun : run exec answers (init files numWorkers) trace = some s) :
    (∀ d, s.exited = some (Exit.fatalf d) →
      exec d.Path = none ∧ d ∈ SourceSolutions files ∧ s.printed = [] ∧
      ∀ a, step exec answers s a = none) ∧
    (∀ d, Worker.running d ∈ s.workers → exec d.Path = none →
      (s.exited = none → ∃ i, step exec answers s (Action.exec i)
          = some { s with exited := some (Exit.fatalf d) }) ∧
      ∀ later s', run exec answers s later = some s' →
        later.length ≤ remaining s ∧
        s'.printed = [] ∧ s'.main = MainAt.collecting ∧
        ((∀ a, step exec answers s' a = none) →
          ∃ d', s'.exited = some (Exit.fatalf d') ∧ exec d'.Path = none)) ∧
    (s.printed ≠ [] → s.main ≠ MainAt.collecting) ∧
    (s.main ≠ MainAt.collecting →
      ∀ d ∈ SourceSolutions files, ∃ out, exec d.Path = some out ∧
        (⟨TrimSuffix out [10], d.Path, d.Problem⟩ : Solution) ∈ s.collected) := by
  have hinv := Inv_run trace (Inv_init exec answers files numWorkers) hrun
  refine ⟨?_, ?_, ?_, ?_⟩
  · intro d hd
    obtain ⟨hm, hfail, hmem⟩ := hinv.fatal d hd
    refine ⟨(runOne_eq_none_iff exec d).mp hfail, ?_, hinv.quiet hm, ?_⟩
    · rw [← hinv.order]
      exact List.mem_append_left _ hmem
    · intro a
      cases hs : step exec answers s a with
      | none => rfl
      | some s' =>
        have := (step_alive hs).1
        rw [hd] at this
        exact Option.noConfusion this
  · intro d hmem hfail
    have hdoom : Doomed exec s := Or.inl ⟨d, hmem, hfail⟩
    have hq := Doomed_quiet hinv hdoom
    constructor
    · intro halive
      obtain ⟨i, hi⟩ := List.mem_iff_get?.mp hmem
      exact ⟨i, exec_fail_enabled halive (by rw [hq.2.1]; exact fun hc => MainAt.noConfusion hc)
        hi ((runOne_eq_none_iff exec d).mpr hfail)⟩
    · intro later s' hlater
      have hbound := remaining_run later hlater
      exact ⟨by omega,
        Doomed_quiet (Inv_run later hinv hlater) (Doomed_run later hdoom hlater)⟩
  · intro hp hm
    exact hp (hinv.quiet hm)
  · intro hm d hd
    obtain ⟨_, _, hperm⟩ := collected_complete hinv hworkers hm
    have hmem : ident d ∈ s.collected.map ident :=
      hperm.mem_iff.mpr (List.mem_map_of_mem _ hd)
    obtain ⟨r, hr, hid⟩ := List.mem_map.mp hmem
    obtain ⟨out, hout, hans⟩ := hinv.answered r (Or.inl hr)
    have hpath : r.Path = d.Path := congrArg Prod.fst hid
    have hprob : r.Problem = d.Problem := congrArg Prod.snd hid
    refine ⟨out, by rw [← hpath]; exact hout, ?_⟩
    have : r = ⟨TrimSuffix out [10], d.Path, d.Problem⟩ := by
      cases r
      simp only at hans hpath hprob
      rw [hans, hpath, hprob]
    rw [← this]
    exact hr

theorem failure_aborts_without_report_witness :
    (fun p => if p = ascii "2.go" then none else some [52, 50, 10] : GoString → Option GoString)
        (ascii "2.go") = none ∧
    (⟨[], ascii "2.go", 2⟩ : Solution) ∈ SourceSolutions [ascii "1.go", ascii "2.go"] ∧
    ([] : List ReportLine) = [] ∧
    ∀ a, step (fun p => if p = ascii "2.go" then none else some [52, 50, 10]) [[52, 50], [55]]
      { pending := [], sourceDone := false, workers := [Worker.running ⟨[], ascii "2.go", 2⟩],
        closer := false, closes := 0, collected := [⟨[52, 50], ascii "1.go", 1⟩],
        main := MainAt.collecting, printed := [],
        exited := some (Exit.fatalf ⟨[], ascii "2.go", 2⟩),
        received := [(0, ⟨[], ascii "1.go", 1⟩), (0, ⟨[], ascii "2.go", 2⟩)] } a = none :=
  (failure_aborts_without_report
      (fun p => if p = ascii "2.go" then none else some [52, 50, 10]) [[52, 50], [55]]
      [ascii "1.go", ascii "2.go"] 1
      [Action.handoff 0, Action.exec 0, Action.deliver 0, Action.handoff 0, Action.exec 0]
      { pending := [], sourceDone := false, workers := [Worker.running ⟨[], ascii "2.go", 2⟩],
        closer := false, closes := 0, collected := [⟨[52, 50], ascii "1.go", 1⟩],
        main := MainAt.collecting, printed := [],
        exited := some (Exit.fatalf ⟨[], ascii "2.go", 2⟩),
        received := [(0, ⟨[], ascii "1.go", 1⟩), (0, ⟨[], ascii "2.go", 2⟩)] }
      (by decide) (by decide)).1 ⟨[], ascii "2.go", 2⟩ rfl

end Validate
